import Mathlib

/-!
Verification development for the SeemoRe single-image super-resolution
engine (`src/seemore/core.py`).  The development shallowly embeds three
parts of the source:

* the tiled-inference scheduler `SeemoReUpscaler.tile_inference` and the
  routing in `SeemoReUpscaler.__call__` (value-generic: the scheduler only
  copies pixel values, so it is embedded for an arbitrary value type);
* the mixture-of-experts layer `MoELayer` (gating, top-k selection, the
  training-mode and inference-mode accumulation paths);
* a shape semantics for the whole `SeemoRe.forward` pipeline, together
  with a state-transition view of the mutable `self.mean` buffer.

Real-valued tensor entries are modelled as exact rationals; the softmax
exponential, a transcendental function, is abstracted as a parameter
`expf` of which only positivity (true of `exp`) is ever assumed.
-/

namespace Seemore

/-! ### Tiled-inference scheduler (`SeemoReUpscaler.tile_inference`) -/

/-- Pixel plane of one image: value at (row, column).  The scheduler's
slices keep the batch and channel dimensions whole, so the embedding
indexes the two spatial coordinates only; the value type is arbitrary
because the scheduler merely copies values. -/
def Img (α : Type) : Type := ℕ → ℕ → α

/-- `y[:, :, a:, b:]` viewed as a function: the crop of `y` at offset
`(a, b)` (the crop's extent is tracked separately by its users). -/
def cropImg {α : Type} (y : Img α) (a b : ℕ) : Img α := fun i j => y (a + i) (b + j)

/-- `tile_pad = 12`. -/
def tilePad : ℕ := 12

/-- `x_start = x_idx * tile_size`. -/
def tStart (t xi : ℕ) : ℕ := xi * t

/-- `x_end = min(x_start + tile_size, width)`. -/
def tEnd (dim t xi : ℕ) : ℕ := min (tStart t xi + t) dim

/-- `x_start_pad = max(x_start - tile_pad, 0)` (truncated ℕ subtraction
is exactly the clamp at 0). -/
def tStartPad (t xi : ℕ) : ℕ := tStart t xi - tilePad

/-- `x_end_pad = min(x_end + tile_pad, width)`. -/
def tEndPad (dim t xi : ℕ) : ℕ := min (tEnd dim t xi + tilePad) dim

/-- `math.ceil(width / tile_size)` for a positive integer tile size. -/
def tilesCount (dim t : ℕ) : ℕ := (dim + t - 1) / t

/-- The `(y_idx, x_idx)` pairs visited by the two nested loops, in
iteration order (`y_idx` outer, `x_idx` inner). -/
def tileGrid (h w t : ℕ) : List (ℕ × ℕ) :=
  (List.range (tilesCount h t)).flatMap
    (fun yi => (List.range (tilesCount w t)).map (fun xi => (yi, xi)))

/-- Output pixel `(p, q)` lies in the region
`[x_start*scale, x_end*scale) × [y_start*scale, y_end*scale)` written by
tile `T = (y_idx, x_idx)`. -/
def coversPx (s t h w : ℕ) (T : ℕ × ℕ) (p q : ℕ) : Prop :=
  s * tStart t T.1 ≤ p ∧ p < s * tEnd h t T.1 ∧
    s * tStart t T.2 ≤ q ∧ q < s * tEnd w t T.2

instance (s t h w : ℕ) (T : ℕ × ℕ) (p q : ℕ) : Decidable (coversPx s t h w T p q) := by
  unfold coversPx; infer_instance

/-- One iteration of the tile loop body: extract the padded tile
`y[:, :, y_start_pad:y_end_pad, x_start_pad:x_end_pad]`, run the model on
it, and write the valid sub-rectangle of the model output into the output
tensor.  The pixel written at `(p, q)` of the output is
`output_tile[out_y_start_valid + (p - s*y_start), ...]`, and
`out_y_start_valid + (p - s*y_start) = p - s*y_start_pad`. -/
def writeTile {α : Type} (model : ℕ → ℕ → Img α → Img α) (s : ℕ) (y : Img α)
    (h w t : ℕ) (out : Img α) (T : ℕ × ℕ) : Img α :=
  fun p q =>
    if coversPx s t h w T p q then
      model (tEndPad h t T.1 - tStartPad t T.1) (tEndPad w t T.2 - tStartPad t T.2)
        (cropImg y (tStartPad t T.1) (tStartPad t T.2))
        (p - s * tStartPad t T.1) (q - s * tStartPad t T.2)
    else out p q

/-- `output = y.new_zeros(output_shape)`. -/
def zeroImg {α : Type} [Zero α] : Img α := fun _ _ => 0

/-- `SeemoReUpscaler.tile_inference` for a positive integer tile size:
fold the per-tile writes over the tile grid, starting from the all-zero
output tensor.  `model dh dw tile` stands for `self.model(tile)` on a
tile of spatial extent `dh × dw`; `s` is `self.model.scale`. -/
def tileInference {α : Type} [Zero α] (model : ℕ → ℕ → Img α → Img α) (s : ℕ)
    (y : Img α) (h w t : ℕ) : Img α :=
  (tileGrid h w t).foldl (writeTile model s y h w t) zeroImg

/-- `math.ceil(width / tile_size)` on the actual (possibly nonpositive)
integer argument, via exact rational division. -/
def tilesCountInt (dim : ℕ) (t : ℤ) : ℤ := Int.ceil ((dim : ℚ) / (t : ℚ))

/-- The tile grid as enumerated for an arbitrary integer tile size
(`range` of a nonpositive count is empty, as in Python). -/
def tileGridInt (h w : ℕ) (t : ℤ) : List (ℕ × ℕ) :=
  (List.range (tilesCountInt h t).toNat).flatMap
    (fun yi => (List.range (tilesCountInt w t).toNat).map (fun xi => (yi, xi)))

/-- `tile_inference` as reachable by a direct call with any integer
`tile_size`: `tile_size = 0` raises `ZeroDivisionError` inside
`math.ceil(width / tile_size)` (modelled as `none`); otherwise the loop
runs over the enumerated grid. -/
def tileInferenceCall {α : Type} [Zero α] (model : ℕ → ℕ → Img α → Img α) (s : ℕ)
    (y : Img α) (h w : ℕ) (t : ℤ) : Option (Img α) :=
  if t = 0 then none
  else some ((tileGridInt h w t).foldl (writeTile model s y h w t.toNat) zeroImg)

/-- The tiling decision in `SeemoReUpscaler.__call__`:
`if tile_size > 0: tile_inference(y, tile_size) else: self.model(y)`. -/
def upscalerCall {α : Type} [Zero α] (model : ℕ → ℕ → Img α → Img α) (s : ℕ)
    (y : Img α) (h w : ℕ) (t : ℤ) : Option (Img α) :=
  if 0 < t then tileInferenceCall model s y h w t else some (model h w y)

/-! Basic facts about the tile grid. -/

theorem mem_tileGrid {h w t : ℕ} {T : ℕ × ℕ} :
    T ∈ tileGrid h w t ↔ T.1 < tilesCount h t ∧ T.2 < tilesCount w t := by
  rcases T with ⟨yi, xi⟩
  simp only [tileGrid, List.mem_flatMap, List.mem_map, List.mem_range]
  constructor
  · rintro ⟨a, ha, b, hb, hEq⟩
    cases hEq
    exact ⟨ha, hb⟩
  · rintro ⟨h1, h2⟩
    exact ⟨yi, h1, xi, h2, rfl⟩

theorem length_tileGrid (h w t : ℕ) :
    (tileGrid h w t).length = tilesCount h t * tilesCount w t := by
  simp [tileGrid, List.length_flatMap, Function.comp_def]

theorem tilesCount_mul_le {dim t yi : ℕ} (ht : 1 ≤ t) (hyi : yi < tilesCount dim t) :
    yi * t < dim := by
  unfold tilesCount at hyi
  have h1 : (yi + 1) * t ≤ dim + t - 1 := (Nat.le_div_iff_mul_le ht).mp hyi
  rw [Nat.add_mul, Nat.one_mul] at h1
  omega

theorem lt_tilesCount {dim t yi : ℕ} (ht : 1 ≤ t) (h : yi * t < dim) :
    yi < tilesCount dim t := by
  have h1 : (yi + 1) * t ≤ dim + t - 1 := by
    rw [Nat.add_mul, Nat.one_mul]; omega
  exact (Nat.le_div_iff_mul_le ht).mpr h1

theorem mul_min_eq (s a b : ℕ) : s * min a b = min (s * a) (s * b) := by
  rcases Nat.le_total a b with hab | hab
  · rw [Nat.min_eq_left hab, Nat.min_eq_left (Nat.mul_le_mul_left s hab)]
  · rw [Nat.min_eq_right hab, Nat.min_eq_right (Nat.mul_le_mul_left s hab)]

/-! Existence and uniqueness of the covering tile, per axis. -/

theorem axis_cover {s t dim p : ℕ} (hs : 1 ≤ s) (ht : 1 ≤ t) (hp : p < s * dim) :
    p / (s * t) < tilesCount dim t ∧
      s * tStart t (p / (s * t)) ≤ p ∧ p < s * tEnd dim t (p / (s * t)) := by
  set yi := p / (s * t) with hyi
  have hst : 1 ≤ s * t := Nat.mul_le_mul hs ht
  have hstart : s * tStart t yi ≤ p := by
    have h1 : yi * (s * t) ≤ p := Nat.div_mul_le_self p (s * t)
    unfold tStart
    calc s * (yi * t) = yi * (s * t) := by ring
    _ ≤ p := h1
  have hlt : p < yi * (s * t) + s * t := by
    have h2 := Nat.div_add_mod p (s * t)
    have h3 : p % (s * t) < s * t := Nat.mod_lt _ hst
    have h4 : s * t * (p / (s * t)) = yi * (s * t) := by rw [hyi]; ring
    omega
  have hmul : yi * t < dim := by
    have h4 : s * (yi * t) ≤ p := by
      calc s * (yi * t) = yi * (s * t) := by ring
      _ ≤ p := Nat.div_mul_le_self p (s * t)
    have h5 : s * (yi * t) < s * dim := lt_of_le_of_lt h4 hp
    exact Nat.lt_of_mul_lt_mul_left h5
  refine ⟨lt_tilesCount ht hmul, hstart, ?_⟩
  unfold tEnd
  rw [mul_min_eq]
  refine lt_min ?_ hp
  calc p < yi * (s * t) + s * t := hlt
  _ = s * (tStart t yi + t) := by unfold tStart; ring

theorem axis_unique {s t dim p yi : ℕ}
    (h1 : s * tStart t yi ≤ p) (h2 : p < s * tEnd dim t yi) : yi = p / (s * t) := by
  have hlo : yi * (s * t) ≤ p := by
    calc yi * (s * t) = s * tStart t yi := by unfold tStart; ring
    _ ≤ p := h1
  have hhi : p < (yi + 1) * (s * t) := by
    have h3 : p < s * (tStart t yi + t) := by
      refine lt_of_lt_of_le h2 ?_
      unfold tEnd
      exact Nat.mul_le_mul_left s (Nat.min_le_left _ _)
    calc p < s * (tStart t yi + t) := h3
    _ = (yi + 1) * (s * t) := by unfold tStart; ring
  exact (Nat.div_eq_of_lt_le hlo hhi).symm

/-- The value a tile writes at an output pixel inside its valid region:
the model output on the padded crop, indexed relative to the padded
origin. -/
def tileValue {α : Type} (model : ℕ → ℕ → Img α → Img α) (s : ℕ) (y : Img α)
    (h w t : ℕ) (T : ℕ × ℕ) (p q : ℕ) : α :=
  model (tEndPad h t T.1 - tStartPad t T.1) (tEndPad w t T.2 - tStartPad t T.2)
    (cropImg y (tStartPad t T.1) (tStartPad t T.2))
    (p - s * tStartPad t T.1) (q - s * tStartPad t T.2)

theorem writeTile_of_covers {α : Type} (model : ℕ → ℕ → Img α → Img α) {s : ℕ}
    (y : Img α) {h w t : ℕ} (out : Img α) {T : ℕ × ℕ} {p q : ℕ}
    (hc : coversPx s t h w T p q) :
    writeTile model s y h w t out T p q = tileValue model s y h w t T p q := by
  simp [writeTile, tileValue, if_pos hc]

theorem writeTile_of_not_covers {α : Type} (model : ℕ → ℕ → Img α → Img α) {s : ℕ}
    (y : Img α) {h w t : ℕ} (out : Img α) {T : ℕ × ℕ} {p q : ℕ}
    (hc : ¬ coversPx s t h w T p q) :
    writeTile model s y h w t out T p q = out p q := by
  simp [writeTile, if_neg hc]

theorem foldl_writeTile_of_not_covered {α : Type} (model : ℕ → ℕ → Img α → Img α)
    {s : ℕ} (y : Img α) {h w t : ℕ} {p q : ℕ} (L : List (ℕ × ℕ)) (acc : Img α)
    (hnc : ∀ T ∈ L, ¬ coversPx s t h w T p q) :
    (L.foldl (writeTile model s y h w t) acc) p q = acc p q := by
  induction L generalizing acc with
  | nil => rfl
  | cons T rest ih =>
    rw [List.foldl_cons, ih _ (fun T' hT' => hnc T' (List.mem_cons_of_mem T hT'))]
    exact writeTile_of_not_covers model y acc (hnc T (List.mem_cons_self T rest))

theorem foldl_writeTile_of_covered {α : Type} (model : ℕ → ℕ → Img α → Img α)
    {s : ℕ} (y : Img α) {h w t : ℕ} {p q : ℕ} {T0 : ℕ × ℕ} (L : List (ℕ × ℕ))
    (acc : Img α)
    (huniq : ∀ T T', coversPx s t h w T p q → coversPx s t h w T' p q → T = T')
    (hT0 : T0 ∈ L) (hc : coversPx s t h w T0 p q) :
    (L.foldl (writeTile model s y h w t) acc) p q = tileValue model s y h w t T0 p q := by
  induction L generalizing acc with
  | nil => exact absurd hT0 (List.not_mem_nil T0)
  | cons T rest ih =>
    rw [List.foldl_cons]
    by_cases hex : ∃ T' ∈ rest, coversPx s t h w T' p q
    · obtain ⟨T', hT', hcT'⟩ := hex
      have hEq : T' = T0 := huniq T' T0 hcT' hc
      exact ih _ (hEq ▸ hT')
    · push_neg at hex
      rw [foldl_writeTile_of_not_covered model y rest _ hex]
      have hTT0 : T = T0 := by
        rcases List.mem_cons.mp hT0 with hEq | hmem
        · exact hEq.symm
        · exact absurd hc (hex T0 hmem)
      rw [hTT0, writeTile_of_covers model y acc hc]

theorem cover_unique {s t h w p q : ℕ} :
    ∀ T T' : ℕ × ℕ, coversPx s t h w T p q → coversPx s t h w T' p q → T = T' := by
  rintro ⟨yi, xi⟩ ⟨yi', xi'⟩ ⟨h1, h2, h3, h4⟩ ⟨h1', h2', h3', h4'⟩
  have e1 : yi = p / (s * t) := axis_unique h1 h2
  have e2 : yi' = p / (s * t) := axis_unique h1' h2'
  have e3 : xi = q / (s * t) := axis_unique h3 h4
  have e4 : xi' = q / (s * t) := axis_unique h3' h4'
  simp [e1, e2, e3, e4]

theorem cover_exists {s t h w p q : ℕ} (hs : 1 ≤ s) (ht : 1 ≤ t)
    (hp : p < s * h) (hq : q < s * w) :
    (p / (s * t), q / (s * t)) ∈ tileGrid h w t ∧
      coversPx s t h w (p / (s * t), q / (s * t)) p q := by
  obtain ⟨hy1, hy2, hy3⟩ := @axis_cover s t h p hs ht hp
  obtain ⟨hx1, hx2, hx3⟩ := @axis_cover s t w q hs ht hq
  exact ⟨mem_tileGrid.mpr ⟨hy1, hx1⟩, hy2, hy3, hx2, hx3⟩

/-- A model with receptive field bounded by the scheduler's 12-pixel pad:
on any crop of `y` whose border either coincides with the image border or
is at least `tile_pad` input pixels (i.e. `12 * scale` output pixels) away
from the queried output pixel, the model agrees with its whole-image run.
A purely convolutional network whose total receptive-field radius is at
most 12 has this property; networks containing global operations (such as
this model's global-average-pool router) do not. -/
def Local12 {α : Type} (s : ℕ) (model : ℕ → ℕ → Img α → Img α) : Prop :=
  ∀ (h w a b hh ww : ℕ) (y : Img α), a + hh ≤ h → b + ww ≤ w → 1 ≤ hh → 1 ≤ ww →
    ∀ i j, i < s * hh → j < s * ww →
      (a = 0 ∨ tilePad * s ≤ i) → (a + hh = h ∨ i + tilePad * s < s * hh) →
      (b = 0 ∨ tilePad * s ≤ j) → (b + ww = w ∨ j + tilePad * s < s * ww) →
      model hh ww (cropImg y a b) i j = model h w y (s * a + i) (s * b + j)

/-- All facts about one axis of a covering tile's padded bounds needed to
match a `Local12` model's crop run against its whole-image run. -/
theorem axis_pad_bounds {s t dim p yi : ℕ} (ht : 1 ≤ t)
    (hyi : yi < tilesCount dim t)
    (h1 : s * tStart t yi ≤ p) (h2 : p < s * tEnd dim t yi) :
    tEndPad dim t yi ≤ dim ∧
      s * tStartPad t yi + (p - s * tStartPad t yi) = p ∧
      1 ≤ tEndPad dim t yi - tStartPad t yi ∧
      tStartPad t yi + (tEndPad dim t yi - tStartPad t yi) = tEndPad dim t yi ∧
      p - s * tStartPad t yi < s * (tEndPad dim t yi - tStartPad t yi) ∧
      (tStartPad t yi = 0 ∨ tilePad * s ≤ p - s * tStartPad t yi) ∧
      (tEndPad dim t yi = dim ∨
        (p - s * tStartPad t yi) + tilePad * s < s * (tEndPad dim t yi - tStartPad t yi)) := by
  have hys : tStart t yi < dim := tilesCount_mul_le ht hyi
  have hse : tStart t yi < tEnd dim t yi := by
    unfold tEnd; exact lt_min (by omega) hys
  have hsp : tStartPad t yi ≤ tStart t yi := Nat.sub_le _ _
  have hep1 : tEnd dim t yi ≤ tEndPad dim t yi := by
    unfold tEndPad
    refine le_min (by omega) ?_
    unfold tEnd; exact Nat.min_le_right _ _
  have hep2 : tEndPad dim t yi ≤ dim := Nat.min_le_right _ _
  have hm1 : s * tStartPad t yi ≤ s * tStart t yi := Nat.mul_le_mul_left s hsp
  have hm2 : s * tEnd dim t yi ≤ s * tEndPad dim t yi := Nat.mul_le_mul_left s hep1
  have hsub : s * (tEndPad dim t yi - tStartPad t yi) =
      s * tEndPad dim t yi - s * tStartPad t yi := Nat.mul_sub s _ _
  refine ⟨hep2, by omega, by omega, by omega, by omega, ?_, ?_⟩
  · by_cases h0 : tStartPad t yi = 0
    · exact Or.inl h0
    · right
      have hgt : tilePad < tStart t yi := by
        unfold tStartPad at h0; omega
      have heq : s * tStartPad t yi = s * tStart t yi - s * tilePad := by
        unfold tStartPad; exact Nat.mul_sub s _ _
      have hge : s * tilePad ≤ s * tStart t yi := Nat.mul_le_mul_left s (le_of_lt hgt)
      have hc : tilePad * s = s * tilePad := Nat.mul_comm _ _
      omega
  · by_cases hD : tEndPad dim t yi = dim
    · exact Or.inl hD
    · right
      have heq : tEndPad dim t yi = tEnd dim t yi + tilePad := by
        unfold tEndPad at hD ⊢; omega
      have hmul : s * tEndPad dim t yi = s * tEnd dim t yi + s * tilePad := by
        rw [heq, Nat.left_distrib]
      have hc : tilePad * s = s * tilePad := Nat.mul_comm _ _
      omega

/-- For a `Local12` model, the covering tile's contribution at an
in-range output pixel equals the whole-image model output there. -/
theorem tileValue_eq_model {α : Type} (model : ℕ → ℕ → Img α → Img α) (y : Img α)
    {s t h w p q : ℕ} (hloc : Local12 s model) (hs : 1 ≤ s) (ht : 1 ≤ t)
    (hp : p < s * h) (hq : q < s * w) :
    tileValue model s y h w t (p / (s * t), q / (s * t)) p q = model h w y p q := by
  obtain ⟨hmem, hcov⟩ := cover_exists (h := h) (w := w) hs ht hp hq
  have hm1 : p / (s * t) < tilesCount h t := (mem_tileGrid.mp hmem).1
  have hm2 : q / (s * t) < tilesCount w t := (mem_tileGrid.mp hmem).2
  have hcy1 : s * tStart t (p / (s * t)) ≤ p := hcov.1
  have hcy2 : p < s * tEnd h t (p / (s * t)) := hcov.2.1
  have hcx1 : s * tStart t (q / (s * t)) ≤ q := hcov.2.2.1
  have hcx2 : q < s * tEnd w t (q / (s * t)) := hcov.2.2.2
  obtain ⟨hy1, hy2, hy3, hy4, hy5, hy6, hy7⟩ :=
    @axis_pad_bounds s t h p (p / (s * t)) ht hm1 hcy1 hcy2
  obtain ⟨hx1, hx2, hx3, hx4, hx5, hx6, hx7⟩ :=
    @axis_pad_bounds s t w q (q / (s * t)) ht hm2 hcx1 hcx2
  unfold tileValue
  rw [hloc h w (tStartPad t (p / (s * t))) (tStartPad t (q / (s * t)))
      (tEndPad h t (p / (s * t)) - tStartPad t (p / (s * t)))
      (tEndPad w t (q / (s * t)) - tStartPad t (q / (s * t))) y
      (by omega) (by omega) hy3 hx3 _ _ hy5 hx5 hy6 (by omega) hx6 (by omega)]
  rw [hy2, hx2]

/-- **C1 (amended).**  The tiled scheduler reproduces whole-image
inference exactly (a) for any model when a single tile covers the whole
image (`tile_size ≥` both spatial dimensions), and (b) for every
`tile_size ≥ 1` when the model's receptive field is bounded by the
12-pixel pad (`Local12`).  The unconditional tolerance claim fails for
models with global spatial dependence; see the counterexample. -/
theorem tileInference_matches_forward {α : Type} [Zero α]
    (model : ℕ → ℕ → Img α → Img α) (s t h w : ℕ) (y : Img α) (hs : 1 ≤ s) :
    (1 ≤ h → 1 ≤ w → h ≤ t → w ≤ t → ∀ p q, p < s * h → q < s * w →
        tileInference model s y h w t p q = model h w y p q) ∧
    (Local12 s model → 1 ≤ t → ∀ p q, p < s * h → q < s * w →
        tileInference model s y h w t p q = model h w y p q) := by
  constructor
  · intro hh hw hht hwt p q hp hq
    have ht : 1 ≤ t := le_trans hh hht
    have hch : tilesCount h t = 1 := by
      unfold tilesCount
      exact Nat.div_eq_of_lt_le (by omega) (by omega)
    have hcw : tilesCount w t = 1 := by
      unfold tilesCount
      exact Nat.div_eq_of_lt_le (by omega) (by omega)
    have hgrid : tileGrid h w t = [(0, 0)] := by
      unfold tileGrid
      rw [hch, hcw]
      rfl
    have hEndH : tEnd h t 0 = h := by
      unfold tEnd tStart
      simp [Nat.min_eq_right, hht]
    have hEndW : tEnd w t 0 = w := by
      unfold tEnd tStart
      simp [Nat.min_eq_right, hwt]
    have hcov : coversPx s t h w (0, 0) p q := by
      refine ⟨?_, ?_, ?_, ?_⟩
      · simp [tStart]
      · rw [hEndH]; exact hp
      · simp [tStart]
      · rw [hEndW]; exact hq
    unfold tileInference
    rw [hgrid, List.foldl_cons, List.foldl_nil,
      writeTile_of_covers model y zeroImg hcov]
    unfold tileValue
    have hsp : tStartPad t 0 = 0 := by simp [tStartPad, tStart]
    have hep1 : tEndPad h t 0 = h := by
      rw [tEndPad, hEndH]; simp
    have hep2 : tEndPad w t 0 = w := by
      rw [tEndPad, hEndW]; simp
    have hcrop : cropImg y 0 0 = y := by
      funext i j
      simp [cropImg]
    simp only [hsp, hep1, hep2, Nat.sub_zero, Nat.mul_zero, hcrop]
  · intro hloc ht p q hp hq
    obtain ⟨hmem, hcov⟩ := cover_exists (h := h) (w := w) hs ht hp hq
    unfold tileInference
    rw [foldl_writeTile_of_covered model y _ zeroImg cover_unique hmem hcov]
    exact tileValue_eq_model model y hloc hs ht hp hq

/-- `Σ` of all pixel values of `y` over `[0, h) × [0, w)`. -/
def sumRegion (y : Img ℤ) (h w : ℕ) : ℤ :=
  ((List.range h).map (fun i => ((List.range w).map (fun j => y i j)).sum)).sum

/-- A shape-conforming scale-2 model whose every output pixel is the
global sum of its input plane — the extreme form of the global spatial
dependence the source network has through its router
(`Router` global-average-pools the entire tile before gating). -/
def gSumModel : ℕ → ℕ → Img ℤ → Img ℤ := fun h w y => fun _ _ => sumRegion y h w

/-- A 1 × 14 input, zero except for a single 1 at column 13. -/
def yCexImg : Img ℤ := fun i j => if i = 0 ∧ j = 13 then 1 else 0

/-- **C1 (counterexample).**  With `tile_size = 1` the padded tile at the
origin sees only columns `[0, 13)` of the 1 × 14 input, so a model with
global spatial dependence (here: global sum, mirroring the source
router's global average pooling) produces a tiled output differing from
whole-image inference by a full unit — far beyond the claimed `1e-4`
tolerance, refuting the claim for arbitrary tile sizes. -/
theorem tileInference_tolerance_cex :
    gSumModel 1 14 yCexImg 0 0 - tileInference gSumModel 2 yCexImg 1 14 1 0 0 = 1 ∧
    (1 : ℚ) / 10000 < 1 := by
  constructor
  · decide
  · norm_num

/-- The identity model at scale 1, used to instantiate the C1 theorem. -/
def idModel : ℕ → ℕ → Img ℤ → Img ℤ := fun _ _ y => y

theorem tileInference_matches_forward_witness :
    tileInference idModel 1 yCexImg 2 2 3 1 1 = idModel 2 2 yCexImg 1 1 ∧
    tileInference idModel 1 yCexImg 2 2 1 1 1 = idModel 2 2 yCexImg 1 1 := by
  have hloc : Local12 1 idModel := by
    intro h w a b hh ww y ha hb h1 h2 i j hi hj hc1 hc2 hc3 hc4
    simp [idModel, cropImg]
  exact ⟨(tileInference_matches_forward idModel 1 3 2 2 yCexImg (by decide)).1
      (by decide) (by decide) (by decide) (by decide) 1 1 (by decide) (by decide),
    (tileInference_matches_forward idModel 1 1 2 2 yCexImg (by decide)).2
      hloc (by decide) 1 1 (by decide) (by decide)⟩

/-- **C2.**  The per-tile written regions partition the scaled output:
the grid has `ceil(h/t) * ceil(w/t)` tile invocations (9 for a 100 × 100
input with `tile_size = 37`), every in-range output pixel is written by
exactly one tile, and each tile's padded input bounds are the unpadded
bounds extended by 12 pixels per side, clipped to the image boundary. -/
theorem tileGrid_partition (s t h w : ℕ) (hs : 1 ≤ s) (ht : 1 ≤ t) :
    (tileGrid h w t).length = tilesCount h t * tilesCount w t ∧
    (tileGrid 100 100 37).length = 9 ∧
    (∀ p q, p < s * h → q < s * w →
      ∃! T, T ∈ tileGrid h w t ∧ coversPx s t h w T p q) ∧
    (∀ xi, (tStartPad t xi : ℤ) = max ((tStart t xi : ℤ) - 12) 0 ∧
      tEndPad w t xi = min (tEnd w t xi + 12) w) := by
  refine ⟨length_tileGrid h w t, by decide, ?_, ?_⟩
  · intro p q hp hq
    refine ⟨(p / (s * t), q / (s * t)), cover_exists hs ht hp hq, ?_⟩
    rintro T' ⟨hmem', hcov'⟩
    exact cover_unique T' _ hcov' (cover_exists hs ht hp hq).2
  · intro xi
    constructor
    · unfold tStartPad tilePad
      omega
    · rfl

theorem tileGrid_partition_witness :
    (tileGrid 100 100 37).length = 9 ∧
    ∃! T, T ∈ tileGrid 1 1 1 ∧ coversPx 1 1 1 1 T 0 0 := by
  have h := tileGrid_partition 1 1 1 1 (by decide) (by decide)
  exact ⟨h.2.1, h.2.2.1 0 0 (by decide) (by decide)⟩

/-! ### Behaviour of `tile_inference` on nonpositive tile sizes (C3) -/

theorem tilesCountInt_nonpos {t : ℤ} (ht : t < 0) (dim : ℕ) :
    tilesCountInt dim t ≤ 0 := by
  unfold tilesCountInt
  have h1 : ((dim : ℚ) / (t : ℚ)) ≤ ((0 : ℤ) : ℚ) := by
    push_cast
    apply div_nonpos_of_nonneg_of_nonpos
    · positivity
    · exact_mod_cast le_of_lt ht
  exact Int.ceil_le.mpr h1

theorem tileInferenceCall_neg {α : Type} [Zero α] (model : ℕ → ℕ → Img α → Img α)
    (s : ℕ) (y : Img α) (h w : ℕ) {t : ℤ} (ht : t < 0) :
    tileInferenceCall model s y h w t = some zeroImg := by
  unfold tileInferenceCall
  rw [if_neg (by omega)]
  have h1 : (tilesCountInt h t).toNat = 0 :=
    Int.toNat_of_nonpos (tilesCountInt_nonpos ht h)
  unfold tileGridInt
  rw [h1]
  rfl

theorem tilesCountInt_toNat {t : ℤ} (ht : 1 ≤ t) (dim : ℕ) :
    (tilesCountInt dim t).toNat = tilesCount dim t.toNat := by
  have ht' : ((t.toNat : ℤ)) = t := Int.toNat_of_nonneg (by omega)
  have hn : 1 ≤ t.toNat := by omega
  have hmod := Nat.div_add_mod (dim + t.toNat - 1) t.toNat
  have hmlt : (dim + t.toNat - 1) % t.toNat < t.toNat := Nat.mod_lt _ (by omega)
  have f1 : dim ≤ t.toNat * ((dim + t.toNat - 1) / t.toNat) := by omega
  have f2 : t.toNat * ((dim + t.toNat - 1) / t.toNat) < dim + t.toNat := by omega
  have hceil : tilesCountInt dim t = ((tilesCount dim t.toNat : ℕ) : ℤ) := by
    unfold tilesCountInt tilesCount
    have hcast : (t : ℚ) = ((t.toNat : ℕ) : ℚ) := by exact_mod_cast ht'.symm
    rw [hcast, Int.ceil_eq_iff]
    simp only [Int.cast_natCast]
    have hnpos : (0 : ℚ) < ((t.toNat : ℕ) : ℚ) := by exact_mod_cast hn
    have f1' : (dim : ℚ) ≤ ((t.toNat : ℕ) : ℚ) * (((dim + t.toNat - 1) / t.toNat : ℕ) : ℚ) := by
      exact_mod_cast f1
    have f2' : ((t.toNat : ℕ) : ℚ) * (((dim + t.toNat - 1) / t.toNat : ℕ) : ℚ) <
        (dim : ℚ) + ((t.toNat : ℕ) : ℚ) := by exact_mod_cast f2
    constructor
    · rw [lt_div_iff₀ hnpos]
      nlinarith [f2']
    · rw [div_le_iff₀ hnpos]
      nlinarith [f1']
  rw [hceil]
  exact Int.toNat_natCast _

theorem tileGridInt_pos {t : ℤ} (ht : 1 ≤ t) (h w : ℕ) :
    tileGridInt h w t = tileGrid h w t.toNat := by
  unfold tileGridInt tileGrid
  rw [tilesCountInt_toNat ht, tilesCountInt_toNat ht]

/-- **C3 (amended).**  The scheduler does not validate `tile_size`:
a direct call to `tile_inference` with `tile_size = 0` fails with a
division-by-zero error, but with `tile_size < 0` it silently returns the
all-zero output tensor; the public `__call__` entry point routes
`tile_size ≤ 0` to whole-image inference (tiling disabled) and
`tile_size > 0` to the tile loop. -/
theorem tileSize_validation {α : Type} [Zero α] (model : ℕ → ℕ → Img α → Img α)
    (s : ℕ) (y : Img α) (h w : ℕ) (t : ℤ) :
    tileInferenceCall model s y h w 0 = none ∧
    (t < 0 → tileInferenceCall model s y h w t = some zeroImg) ∧
    (t ≤ 0 → upscalerCall model s y h w t = some (model h w y)) ∧
    (1 ≤ t → tileInferenceCall model s y h w t =
      some (tileInference model s y h w t.toNat)) := by
  refine ⟨rfl, fun ht => tileInferenceCall_neg model s y h w ht, fun ht => ?_, fun ht => ?_⟩
  · unfold upscalerCall
    rw [if_neg (by omega)]
  · unfold tileInferenceCall tileInference
    rw [if_neg (by omega), tileGridInt_pos ht]

theorem tileSize_validation_witness :
    tileInferenceCall idModel 1 yCexImg 1 1 0 = none ∧
    tileInferenceCall idModel 1 yCexImg 1 1 (-1) = some zeroImg ∧
    upscalerCall idModel 1 yCexImg 1 1 (-1) = some (idModel 1 1 yCexImg) ∧
    tileInferenceCall idModel 1 yCexImg 1 1 2 =
      some (tileInference idModel 1 yCexImg 1 1 (2 : ℤ).toNat) := by
  have h1 := tileSize_validation idModel 1 yCexImg 1 1 (-1)
  have h2 := tileSize_validation idModel 1 yCexImg 1 1 2
  exact ⟨h1.1, h1.2.1 (by decide), h1.2.2.1 (by decide), h2.2.2.2 (by decide)⟩

/-- **C3 (counterexample).**  Called directly with `tile_size = -1`, the
scheduler reports no error: it silently returns the all-zero tensor
(`tiles_x = ceil(w / -1) ≤ 0`, so the loop body never runs), and the
public entry point silently falls back to whole-image inference. -/
theorem tileSize_negative_silent :
    tileInferenceCall idModel 1 yCexImg 1 1 (-1) = some zeroImg ∧
    (tileInferenceCall idModel 1 yCexImg 1 1 (-1)).isSome = true ∧
    upscalerCall idModel 1 yCexImg 1 1 (-1) = some (idModel 1 1 yCexImg) := by
  have h1 : tileInferenceCall idModel 1 yCexImg 1 1 (-1) = some zeroImg :=
    tileInferenceCall_neg idModel 1 yCexImg 1 1 (by decide)
  refine ⟨h1, by rw [h1]; rfl, ?_⟩
  unfold upscalerCall
  rw [if_neg (by decide)]

/-! ### Mixture-of-experts layer (`MoELayer.forward`) -/

/-- Feature tensor of one batch item, flattened to a value per position:
the layer's accumulation `out += expert(inputs, k) * w` acts pointwise,
so the channel/height/width structure is irrelevant to it. -/
def Feat : Type := ℕ → ℚ

/-- One row of `F.softmax(out, dim=1)`.  The exponential is the
parameter `expf`: `exp` is transcendental, and every theorem below
assumes only its positivity, which is true of `exp`. -/
def softmaxRow (expf : ℚ → ℚ) (l : List ℚ) : List ℚ :=
  l.map (fun v => expf v / (l.map expf).sum)

/-- The first maximal-value index of `l` outside `exc` (ties resolve to
the lowest index, as `torch.topk` does on equal scores). -/
def argmaxIdx (l : List ℚ) (exc : List ℕ) : Option ℕ :=
  ((List.range l.length).filter (fun i => decide (i ∉ exc))).foldl
    (fun best i =>
      match best with
      | none => some i
      | some b => if l.getD b 0 < l.getD i 0 then some i else some b)
    none

/-- Repeatedly take the best remaining index, `k` times. -/
def topkGo (l : List ℚ) : ℕ → List ℕ → List ℕ
  | 0, _ => []
  | k + 1, exc =>
    match argmaxIdx l exc with
    | none => []
    | some i => i :: topkGo l k (i :: exc)

/-- `torch.topk(weights, k)` index tensor for one row: the `k`
highest-scoring indices in descending score order; `torch.topk` raises
when `k` exceeds the number of entries (`none`). -/
def topkIdxs (l : List ℚ) (k : ℕ) : Option (List ℕ) :=
  if k ≤ l.length then some (topkGo l k []) else none

/-- The state of `MoELayer`: the expert modules (each a function of the
main input and the calibration tensor), the gate module, and the stored
`num_expert`. -/
structure MoEL where
  experts : List (Feat → Feat → Feat)
  gate : Feat → List ℚ
  numExpert : ℕ

/-- `MoELayer.__init__`: `assert len(experts) > 0` is the only check;
`num_expert` is stored unvalidated. -/
def mkMoELayer (experts : List (Feat → Feat → Feat)) (gate : Feat → List ℚ)
    (numExpert : ℕ) : Option MoEL :=
  if 0 < experts.length then some ⟨experts, gate, numExpert⟩ else none

/-- `out += expert_output * weight`, pointwise. -/
def addScaled (out e : Feat) (c : ℚ) : Feat := fun p => out p + e p * c

/-- One row of `zeros_like(weights).scatter_(1, idx, src)`. -/
def scatterRow (base : List ℚ) (idxs : List ℕ) (vals : List ℚ) : List ℚ :=
  (idxs.zip vals).foldl (fun acc iv => acc.set iv.1 iv.2) base

/-- `MoELayer.forward` on a batch of one: gate scores, softmax,
`torch.topk` (`none` when `num_expert` exceeds the score count — the call
precedes the mode branch, so both modes fail), then either the
training-mode accumulation over every expert weighted by the scattered
zero-elsewhere weights, or the inference-mode accumulation over only the
selected experts weighted by the top-k weights. -/
def moeForward (expf : ℚ → ℚ) (m : MoEL) (training : Bool) (inputs kk : Feat) :
    Option Feat :=
  let weights := softmaxRow expf (m.gate inputs)
  match topkIdxs weights m.numExpert with
  | none => none
  | some sel =>
    let tvals := sel.map (fun i => weights.getD i 0)
    if training then
      let expW := scatterRow (List.replicate weights.length 0) sel tvals
      some ((m.experts.enum).foldl
        (fun out ie => addScaled out (ie.2 inputs kk) (expW.getD ie.1 0)) inputs)
    else
      match sel.mapM (fun i => m.experts[i]?) with
      | none => none
      | some selE =>
        some ((selE.zip tvals).foldl
          (fun out et => addScaled out (et.1 inputs kk) et.2) inputs)

/-! Structural facts about top-k selection. -/

theorem argmaxIdx_mem {l : List ℚ} {exc : List ℕ} {i : ℕ}
    (h : argmaxIdx l exc = some i) : i < l.length ∧ i ∉ exc := by
  have key : ∀ (L : List ℕ) (acc : Option ℕ),
      (L.foldl (fun best j =>
        match best with
        | none => some j
        | some b => if l.getD b 0 < l.getD j 0 then some j else some b) acc) = some i →
      i ∈ L ∨ acc = some i := by
    intro L
    induction L with
    | nil => intro acc hacc; exact Or.inr hacc
    | cons j rest ih =>
      intro acc hacc
      rw [List.foldl_cons] at hacc
      rcases ih _ hacc with hmem | hstep
      · exact Or.inl (List.mem_cons_of_mem j hmem)
      · rcases acc with _ | b
        · simp only at hstep
          exact Or.inl (by rw [← Option.some_inj.mp hstep]; exact List.mem_cons_self j rest)
        · simp only at hstep
          by_cases hlt : l.getD b 0 < l.getD j 0
          · rw [if_pos hlt] at hstep
            exact Or.inl (by rw [← Option.some_inj.mp hstep]; exact List.mem_cons_self j rest)
          · rw [if_neg hlt] at hstep
            exact Or.inr hstep
  rcases key _ none h with hmem | habs
  · have := List.mem_filter.mp hmem
    refine ⟨List.mem_range.mp this.1, ?_⟩
    have hdec := this.2
    simpa using hdec
  · exact absurd habs (by simp)

theorem topkGo_bounds (l : List ℚ) :
    ∀ (k : ℕ) (exc : List ℕ),
      (topkGo l k exc).Nodup ∧ ∀ i ∈ topkGo l k exc, i < l.length ∧ i ∉ exc := by
  intro k
  induction k with
  | zero => intro exc; simp [topkGo]
  | succ k ih =>
    intro exc
    unfold topkGo
    cases hm : argmaxIdx l exc with
    | none => simp
    | some i =>
      obtain ⟨hi1, hi2⟩ := argmaxIdx_mem hm
      obtain ⟨hnd, hbnd⟩ := ih (i :: exc)
      constructor
      · refine List.Nodup.cons ?_ hnd
        intro hmem
        exact absurd (List.mem_cons_self i exc) (hbnd i hmem).2
      · intro j hj
        rcases List.mem_cons.mp hj with hEq | hmem
        · exact hEq ▸ ⟨hi1, hi2⟩
        · obtain ⟨hb1, hb2⟩ := hbnd j hmem
          exact ⟨hb1, fun hc => hb2 (List.mem_cons_of_mem i hc)⟩

theorem topkIdxs_bounds {l : List ℚ} {k : ℕ} {sel : List ℕ}
    (h : topkIdxs l k = some sel) :
    sel.Nodup ∧ ∀ i ∈ sel, i < l.length := by
  unfold topkIdxs at h
  by_cases hk : k ≤ l.length
  · rw [if_pos hk] at h
    obtain ⟨hnd, hbnd⟩ := topkGo_bounds l k []
    cases h
    exact ⟨hnd, fun i hi => (hbnd i hi).1⟩
  · rw [if_neg hk] at h
    cases h

/-! Sum lemmas used to compare the two accumulation paths. -/

theorem foldl_addScaled {β : Type} (f : β → Feat) (c : β → ℚ) (L : List β)
    (init : Feat) (p : ℕ) :
    (L.foldl (fun out z => addScaled out (f z) (c z)) init) p
      = init p + (L.map (fun z => f z p * c z)).sum := by
  induction L generalizing init with
  | nil => simp
  | cons z rest ih =>
    rw [List.foldl_cons, ih, List.map_cons, List.sum_cons]
    show addScaled init (f z) (c z) p + _ = _
    unfold addScaled
    ring

theorem sum_range_single (g : ℕ → ℚ) (n j : ℕ) :
    j < n → ((List.range n).map (fun i => if i = j then g i else 0)).sum = g j := by
  induction n with
  | zero => intro hj; exact absurd hj (by omega)
  | succ n ih =>
    intro hj
    rw [List.range_succ, List.map_append, List.sum_append]
    by_cases hjn : j = n
    · subst hjn
      have hz : ((List.range j).map (fun i => if i = j then g i else 0)).sum = 0 := by
        refine List.sum_eq_zero ?_
        intro v hv
        obtain ⟨i, hi, hvi⟩ := List.mem_map.mp hv
        have hij : i < j := List.mem_range.mp hi
        rw [if_neg (by omega : ¬ i = j)] at hvi
        exact hvi.symm
      simp [hz]
    · rw [ih (by omega)]
      have hnj : ¬ n = j := fun hc => hjn hc.symm
      simp [hnj]

theorem sum_range_indicator (g : ℕ → ℚ) (n : ℕ) (sel : List ℕ) (hnd : sel.Nodup)
    (hbnd : ∀ j ∈ sel, j < n) :
    ((List.range n).map (fun i => if i ∈ sel then g i else 0)).sum
      = (sel.map g).sum := by
  induction sel with
  | nil => simp
  | cons j rest ih =>
    have hj : j ∉ rest := (List.nodup_cons.mp hnd).1
    have hsplit : ∀ i, (if i ∈ j :: rest then g i else 0)
        = (if i = j then g i else 0) + (if i ∈ rest then g i else 0) := by
      intro i
      by_cases hij : i = j
      · subst hij
        rw [if_pos (List.mem_cons_self i rest), if_pos rfl, if_neg hj, add_zero]
      · by_cases hir : i ∈ rest
        · rw [if_pos (List.mem_cons_of_mem j hir), if_neg hij, if_pos hir, zero_add]
        · rw [if_neg (by simp [hij, hir]), if_neg hij, if_neg hir, add_zero]
    calc ((List.range n).map (fun i => if i ∈ j :: rest then g i else 0)).sum
        = ((List.range n).map
            (fun i => (if i = j then g i else 0) + (if i ∈ rest then g i else 0))).sum := by
          exact congrArg List.sum (List.map_congr_left (fun i _ => hsplit i))
      _ = ((List.range n).map (fun i => if i = j then g i else 0)).sum
            + ((List.range n).map (fun i => if i ∈ rest then g i else 0)).sum :=
          List.sum_map_add
      _ = g j + (rest.map g).sum := by
          rw [sum_range_single g n j (hbnd j (List.mem_cons_self j rest)),
            ih (List.nodup_cons.mp hnd).2 (fun i hi => hbnd i (List.mem_cons_of_mem j hi))]
      _ = ((j :: rest).map g).sum := by rw [List.map_cons, List.sum_cons]

theorem enumFrom_map_sum {β : Type} (F : ℕ → β → ℚ) (d : β) :
    ∀ (l : List β) (k : ℕ),
      ((l.enumFrom k).map (fun ie => F ie.1 ie.2)).sum
        = ((List.range l.length).map (fun i => F (k + i) (l.getD i d))).sum := by
  intro l
  induction l with
  | nil => intro k; rfl
  | cons a rest ih =>
    intro k
    rw [List.enumFrom_cons, List.map_cons, List.sum_cons, ih (k + 1),
      List.length_cons, List.range_succ_eq_map, List.map_cons, List.sum_cons,
      List.map_map]
    have h1 : F (k, a).1 (k, a).2 = F (k + 0) ((a :: rest).getD 0 d) := by
      rw [Nat.add_zero]
      rfl
    have h2 : List.map (fun i => F (k + 1 + i) (rest.getD i d)) (List.range rest.length)
        = List.map ((fun i => F (k + i) ((a :: rest).getD i d)) ∘ Nat.succ)
            (List.range rest.length) := by
      refine List.map_congr_left ?_
      intro i _
      show F (k + 1 + i) (rest.getD i d)
        = F (k + Nat.succ i) ((a :: rest).getD (Nat.succ i) d)
      rw [show k + 1 + i = k + Nat.succ i by omega]
      rfl
    rw [h1, h2]

theorem enum_map_sum {β : Type} (F : ℕ → β → ℚ) (d : β) (l : List β) :
    ((l.enum).map (fun ie => F ie.1 ie.2)).sum
      = ((List.range l.length).map (fun i => F i (l.getD i d))).sum := by
  have h := enumFrom_map_sum F d l 0
  simpa using h

theorem scatterRow_getD (g : ℕ → ℚ) (idxs : List ℕ) :
    ∀ (base : List ℚ), (∀ j ∈ idxs, j < base.length) → ∀ i, i < base.length →
      (scatterRow base idxs (idxs.map g)).getD i 0
        = if i ∈ idxs then g i else base.getD i 0 := by
  induction idxs with
  | nil => intro base _ i _; simp [scatterRow]
  | cons j rest ih =>
    intro base hbnd i hi
    have hstep : scatterRow base (j :: rest) ((j :: rest).map g)
        = scatterRow (base.set j (g j)) rest (rest.map g) := by
      simp [scatterRow]
    rw [hstep, ih (base.set j (g j))
      (fun j' hj' => by rw [List.length_set]; exact hbnd j' (List.mem_cons_of_mem j hj'))
      i (by rw [List.length_set]; exact hi)]
    have hset : (base.set j (g j)).getD i 0 = if i = j then g j else base.getD i 0 := by
      rw [List.getD_eq_getElem?_getD, List.getElem?_set]
      by_cases hij : j = i
      · subst hij
        rw [if_pos rfl, if_pos (hbnd j (List.mem_cons_self j rest)), if_pos rfl]
        rfl
      · rw [if_neg hij, if_neg (fun hc => hij hc.symm), List.getD_eq_getElem?_getD]
    by_cases hir : i ∈ rest
    · rw [if_pos hir, if_pos (List.mem_cons_of_mem j hir)]
    · rw [if_neg hir, hset]
      by_cases hij : i = j
      · subst hij
        rw [if_pos rfl, if_pos (List.mem_cons_self i rest)]
      · rw [if_neg hij, if_neg (by simp [hij, hir])]

theorem getD_replicate_zero (n i : ℕ) : (List.replicate n (0 : ℚ)).getD i 0 = 0 := by
  rw [List.getD_eq_getElem?_getD, List.getElem?_replicate]
  by_cases h : i < n
  · rw [if_pos h]; rfl
  · rw [if_neg h]; rfl

theorem mapM_getElem_eq {β : Type} (es : List β) (d : β) :
    ∀ (sel : List ℕ), (∀ i ∈ sel, i < es.length) →
      sel.mapM (fun i => es[i]?) = some (sel.map (fun i => es.getD i d)) := by
  intro sel
  induction sel with
  | nil => intro _; rfl
  | cons j rest ih =>
    intro hbnd
    have hj : j < es.length := hbnd j (List.mem_cons_self j rest)
    rw [List.mapM_cons, List.getElem?_eq_getElem hj,
      ih (fun i hi => hbnd i (List.mem_cons_of_mem j hi))]
    rw [List.map_cons, List.getD_eq_getElem es d hj]
    rfl

/-- **C5.**  For a batch of one and fixed weights, the training-mode path
of `MoELayer.forward` (every expert evaluated, non-selected experts
weighted exactly zero via `scatter_`) and the inference-mode path (only
the top-k selected experts evaluated, weighted by their softmax scores)
return the same output. -/
theorem moe_train_eq_infer (expf : ℚ → ℚ) (m : MoEL) (x kk : Feat)
    (hlen : (m.gate x).length = m.experts.length)
    (hk : m.numExpert ≤ (m.gate x).length) :
    moeForward expf m true x kk = moeForward expf m false x kk := by
  have hwlen : (softmaxRow expf (m.gate x)).length = m.experts.length := by
    unfold softmaxRow
    rw [List.length_map]
    exact hlen
  have hksel : m.numExpert ≤ (softmaxRow expf (m.gate x)).length := by
    unfold softmaxRow
    rw [List.length_map]
    exact hk
  have htk : topkIdxs (softmaxRow expf (m.gate x)) m.numExpert
      = some (topkGo (softmaxRow expf (m.gate x)) m.numExpert []) := by
    unfold topkIdxs
    rw [if_pos hksel]
  obtain ⟨hnd, hbnd⟩ := topkIdxs_bounds htk
  have hbnd' : ∀ i ∈ topkGo (softmaxRow expf (m.gate x)) m.numExpert [],
      i < m.experts.length := fun i hi => hwlen ▸ hbnd i hi
  simp only [moeForward, htk]
  rw [mapM_getElem_eq m.experts (fun _ _ => fun _ => 0) _ hbnd']
  simp only [eq_self_iff_true, if_true, Bool.false_eq_true, if_false]
  refine congrArg some (funext fun p => ?_)
  simp only [foldl_addScaled]
  refine congrArg (fun v => x p + v) ?_
  set w := softmaxRow expf (m.gate x) with hw
  set sel := topkGo w m.numExpert [] with hsel
  set es := m.experts with hes
  set d : Feat → Feat → Feat := fun _ _ => fun _ => 0 with hd
  set g : ℕ → ℚ := fun i => w.getD i 0 with hg
  have hbase : (List.replicate w.length (0 : ℚ)).length = w.length :=
    List.length_replicate _ _
  calc (List.map (fun ie =>
          ie.2 x kk p * (scatterRow (List.replicate w.length 0) sel (sel.map g)).getD ie.1 0)
          es.enum).sum
      = (List.map (fun i =>
          (es.getD i d) x kk p * (scatterRow (List.replicate w.length 0) sel (sel.map g)).getD i 0)
          (List.range es.length)).sum :=
        enum_map_sum (fun i e =>
          e x kk p * (scatterRow (List.replicate w.length 0) sel (sel.map g)).getD i 0) d es
    _ = (List.map (fun i => if i ∈ sel then (es.getD i d) x kk p * g i else 0)
          (List.range es.length)).sum := by
        refine congrArg List.sum (List.map_congr_left ?_)
        intro i hi
        have hin : i < es.length := List.mem_range.mp hi
        rw [scatterRow_getD g sel (List.replicate w.length 0)
            (fun j hj => by rw [hbase]; exact hbnd j hj) i (by rw [hbase, hwlen]; exact hin),
          getD_replicate_zero, mul_ite, mul_zero]
    _ = (sel.map (fun i => (es.getD i d) x kk p * g i)).sum :=
        sum_range_indicator _ es.length sel hnd hbnd'
    _ = (List.map (fun et => et.1 x kk p * et.2)
          ((sel.map (fun i => es.getD i d)).zip (sel.map g))).sum := by
        rw [List.zip_map', List.map_map]
        rfl

/-- Concrete experts, gate, and inputs used by the MoE witnesses. -/
def wExpertA : Feat → Feat → Feat := fun x _ => x

def wExpertB : Feat → Feat → Feat := fun _ kk => kk

def wGate2 : Feat → List ℚ := fun _ => [1, 2]

def wMoE : MoEL := ⟨[wExpertA, wExpertB], wGate2, 1⟩

def wX : Feat := fun _ => 1

def wK : Feat := fun _ => 2

theorem moe_train_eq_infer_witness :
    moeForward (fun _ => 1) wMoE true wX wK
      = moeForward (fun _ => 1) wMoE false wX wK :=
  moe_train_eq_infer (fun _ => 1) wMoE wX wK rfl (by decide)

/-- **C4 (counterexample).**  Constructing the MoE layer with `topk = 5`
and only two experts succeeds: `MoELayer.__init__` performs no
`topk ≤ num_experts` check, so the failure the claim places at
construction time does not happen there. -/
theorem moe_topk_unchecked_cex :
    (mkMoELayer [wExpertA, wExpertB] wGate2 5).isSome = true := rfl

/-- **C4 (amended).**  `MoELayer.__init__` rejects an empty expert list
at construction (`assert len(experts) > 0`) but stores `num_expert`
unvalidated; a layer whose `num_expert` exceeds the gate's score count
passes construction and fails only at inference, inside `torch.topk`
(in both modes, since the `topk` call precedes the mode branch). -/
theorem moe_construction_checks (experts : List (Feat → Feat → Feat))
    (gate : Feat → List ℚ) (k : ℕ) (expf : ℚ → ℚ) (m : MoEL) (x kk : Feat) :
    mkMoELayer [] gate k = none ∧
    (0 < experts.length → (mkMoELayer experts gate k).isSome = true) ∧
    ((m.gate x).length < m.numExpert → ∀ tr, moeForward expf m tr x kk = none) := by
  refine ⟨rfl, fun hpos => ?_, fun hover tr => ?_⟩
  · unfold mkMoELayer
    rw [if_pos hpos]
    rfl
  · have hko : ¬ m.numExpert ≤ (softmaxRow expf (m.gate x)).length := by
      unfold softmaxRow
      rw [List.length_map]
      omega
    have htk : topkIdxs (softmaxRow expf (m.gate x)) m.numExpert = none := by
      unfold topkIdxs
      rw [if_neg hko]
    simp only [moeForward, htk]

theorem moe_construction_checks_witness :
    mkMoELayer [] wGate2 1 = none ∧
    (mkMoELayer [wExpertA] wGate2 1).isSome = true ∧
    moeForward (fun _ => 1) ⟨[wExpertA], fun _ => [], 1⟩ true wX wK = none ∧
    moeForward (fun _ => 1) ⟨[wExpertA], fun _ => [], 1⟩ false wX wK = none := by
  have h := moe_construction_checks [wExpertA] wGate2 1 (fun _ => 1)
    ⟨[wExpertA], fun _ => [], 1⟩ wX wK
  exact ⟨h.1, h.2.1 (by decide), h.2.2 (by decide) true, h.2.2 (by decide) false⟩

/-! Facts about the softmax weights (C6). -/

theorem sum_map_div (l : List ℚ) (s : ℚ) :
    (l.map (fun v => v / s)).sum = l.sum / s := by
  induction l with
  | nil => simp
  | cons a rest ih => simp [ih, add_div]

theorem getD_range_sum (l : List ℚ) :
    ((List.range l.length).map (fun i => l.getD i 0)).sum = l.sum := by
  induction l with
  | nil => rfl
  | cons a rest ih =>
    rw [List.length_cons, List.range_succ_eq_map, List.map_cons, List.sum_cons,
      List.map_map]
    have hmap : List.map ((fun i => (a :: rest).getD i 0) ∘ Nat.succ)
        (List.range rest.length)
        = List.map (fun i => rest.getD i 0) (List.range rest.length) := by
      refine List.map_congr_left ?_
      intro i _
      rfl
    rw [hmap, ih, List.sum_cons]
    rfl

/-- **C6.**  Every selected top-k gate weight (softmax score restricted
to the selected experts) lies in `[0, 1]`, and the selected weights sum
to at most 1.  Only positivity of the softmax exponential is assumed,
which holds for `exp`. -/
theorem gate_weights_bounded (expf : ℚ → ℚ) (hpos : ∀ v, 0 < expf v)
    (scores : List ℚ) (k : ℕ) (sel : List ℕ)
    (hsel : topkIdxs (softmaxRow expf scores) k = some sel) :
    (∀ i ∈ sel, 0 ≤ (softmaxRow expf scores).getD i 0
      ∧ (softmaxRow expf scores).getD i 0 ≤ 1) ∧
    (sel.map (fun i => (softmaxRow expf scores).getD i 0)).sum ≤ 1 := by
  obtain ⟨hnd, hbnd⟩ := topkIdxs_bounds hsel
  have hsl : (softmaxRow expf scores).length = scores.length := by
    unfold softmaxRow
    exact List.length_map _ _
  rcases List.eq_nil_or_concat scores with hnil | hcons
  · subst hnil
    have hselnil : sel = [] := by
      cases sel with
      | nil => rfl
      | cons i rest =>
        have := hbnd i (List.mem_cons_self i rest)
        rw [hsl] at this
        exact absurd this (by simp)
    subst hselnil
    exact ⟨by simp, by simp⟩
  · have hne : scores ≠ [] := by
      obtain ⟨l', a, hEq⟩ := hcons
      subst hEq
      simp
    have hS : 0 < (scores.map expf).sum := by
      refine List.sum_pos _ ?_ (by simpa using hne)
      intro v hv
      obtain ⟨u, _, huv⟩ := List.mem_map.mp hv
      exact huv ▸ hpos u
    have hval : ∀ i, i < scores.length →
        (softmaxRow expf scores).getD i 0
          = expf (scores.getD i 0) / (scores.map expf).sum := by
      intro i hi
      have hi' : i < (softmaxRow expf scores).length := by rw [hsl]; exact hi
      rw [List.getD_eq_getElem _ _ hi']
      unfold softmaxRow
      rw [List.getElem_map, List.getD_eq_getElem _ _ hi]
    have hbounds : ∀ i, i < scores.length →
        0 ≤ (softmaxRow expf scores).getD i 0
          ∧ (softmaxRow expf scores).getD i 0 ≤ 1 := by
      intro i hi
      rw [hval i hi]
      constructor
      · exact div_nonneg (le_of_lt (hpos _)) (le_of_lt hS)
      · rw [div_le_one hS]
        refine List.single_le_sum ?_ _ ?_
        · intro v hv
          obtain ⟨u, _, huv⟩ := List.mem_map.mp hv
          exact huv ▸ le_of_lt (hpos u)
        · exact List.mem_map.mpr ⟨scores.getD i 0, by
            rw [List.getD_eq_getElem _ _ hi]
            exact List.getElem_mem hi, rfl⟩
    refine ⟨fun i hi => hbounds i (by rw [← hsl]; exact hbnd i hi), ?_⟩
    have hstep1 : (sel.map (fun i => (softmaxRow expf scores).getD i 0)).sum
        = ((List.range (softmaxRow expf scores).length).map
            (fun i => if i ∈ sel then (softmaxRow expf scores).getD i 0 else 0)).sum :=
      (sum_range_indicator _ _ sel hnd hbnd).symm
    have hstep2 : ((List.range (softmaxRow expf scores).length).map
        (fun i => if i ∈ sel then (softmaxRow expf scores).getD i 0 else 0)).sum
        ≤ ((List.range (softmaxRow expf scores).length).map
            (fun i => (softmaxRow expf scores).getD i 0)).sum := by
      refine List.sum_le_sum ?_
      intro i hi
      have hi' : i < scores.length := by rw [← hsl]; exact List.mem_range.mp hi
      by_cases hmem : i ∈ sel
      · rw [if_pos hmem]
      · rw [if_neg hmem]
        exact (hbounds i hi').1
    have hstep3 : ((List.range (softmaxRow expf scores).length).map
        (fun i => (softmaxRow expf scores).getD i 0)).sum
        = (softmaxRow expf scores).sum := getD_range_sum _
    have hstep4 : (softmaxRow expf scores).sum = 1 := by
      unfold softmaxRow
      have hcomp : List.map (fun v => expf v / (scores.map expf).sum) scores
          = List.map (fun u => u / (scores.map expf).sum) (scores.map expf) := by
        rw [List.map_map]
        rfl
      rw [hcomp, sum_map_div, div_self (ne_of_gt hS)]
    rw [hstep1]
    calc ((List.range (softmaxRow expf scores).length).map
        (fun i => if i ∈ sel then (softmaxRow expf scores).getD i 0 else 0)).sum
        ≤ (softmaxRow expf scores).sum := hstep3 ▸ hstep2
      _ = 1 := hstep4

theorem gate_weights_bounded_witness :
    (∀ i ∈ ([0] : List ℕ), 0 ≤ (softmaxRow (fun _ => 1) [0]).getD i 0
      ∧ (softmaxRow (fun _ => 1) [0]).getD i 0 ≤ 1) ∧
    (([0] : List ℕ).map (fun i => (softmaxRow (fun _ => 1) [0]).getD i 0)).sum ≤ 1 :=
  gate_weights_bounded (fun _ => 1) (fun _ => one_pos) [0] 1 [0] rfl

/-! ### The inference path on larger batches (C9) -/

/-- What iterating a (possibly squeezed) index tensor yields per step:
a 0-dim scalar index, or a whole row for a still-2-D tensor. -/
inductive TIdx : Type where
  | scalar (i : ℕ)
  | vec (row : List ℕ)

/-- `topk_experts.squeeze(dim=0)`: the batch dimension is dropped only
when it has size one; iterating the result gives scalars for one row and
whole rows otherwise. -/
def squeeze0 (rows : List (List ℕ)) : List TIdx :=
  match rows with
  | [r] => r.map TIdx.scalar
  | _ => rows.map TIdx.vec

/-- `self.experts[i]`: `nn.ModuleList` indexing accepts an integer (and
a 0-dim tensor via `__index__`) but raises `TypeError` on a 1-D row
tensor. -/
def expertAt (es : List (Feat → Feat → Feat)) : TIdx → Option (Feat → Feat → Feat)
  | TIdx.scalar i => es[i]?
  | TIdx.vec _ => none

/-- The inference-mode body of `MoELayer.forward` on a whole batch:
per-row gating and softmax, per-row `torch.topk`, `squeeze(dim=0)`, then
the expert lookups `self.experts[i]`; the accumulation loop is reached
only when every squeezed index is a scalar (batch of one; for the empty
batch the loop body runs zero times and `out = inputs.clone()`). -/
def moeBatchedInfer (expf : ℚ → ℚ) (m : MoEL) (inputsB kkB : List Feat) :
    Option (List Feat) :=
  let weightsB := inputsB.map (fun x => softmaxRow expf (m.gate x))
  match weightsB.mapM (fun row => topkIdxs row m.numExpert) with
  | none => none
  | some selRows =>
    match (squeeze0 selRows).mapM (expertAt m.experts) with
    | none => none
    | some selE =>
      match inputsB, kkB, selRows with
      | [x], [kk], [sel] =>
        let weights := softmaxRow expf (m.gate x)
        let tvals := sel.map (fun i => weights.getD i 0)
        some [(selE.zip tvals).foldl
          (fun out et => addScaled out (et.1 x kk) et.2) x]
      | _, _, _ => some inputsB

theorem mapM_map_comp {β γ δ : Type} (g : β → γ) (f : γ → Option δ) :
    ∀ l : List β, (l.map g).mapM f = l.mapM (fun b => f (g b)) := by
  intro l
  induction l with
  | nil => rfl
  | cons a rest ih => rw [List.map_cons, List.mapM_cons, List.mapM_cons, ih]

theorem mapM_some_length {β γ : Type} (f : β → Option γ) :
    ∀ (l : List β) (l' : List γ), l.mapM f = some l' → l'.length = l.length := by
  intro l
  induction l with
  | nil =>
    intro l' h
    cases h
    rfl
  | cons a rest ih =>
    intro l' h
    rw [List.mapM_cons] at h
    cases hfa : f a with
    | none =>
      rw [hfa] at h
      cases h
    | some b =>
      rw [hfa] at h
      cases hrest : rest.mapM f with
      | none =>
        rw [hrest] at h
        cases h
      | some bs =>
        rw [hrest] at h
        cases h
        simp [ih bs hrest]

/-- On a batch of one the batched inference path computes exactly the
single-item inference result, wrapped in a one-element batch. -/
theorem moeBatchedInfer_singleton (expf : ℚ → ℚ) (m : MoEL) (x kk : Feat) :
    moeBatchedInfer expf m [x] [kk]
      = (moeForward expf m false x kk).map (fun r => [r]) := by
  unfold moeBatchedInfer moeForward
  simp only [List.map_cons, List.map_nil, List.mapM_cons, List.mapM_nil]
  cases htk : topkIdxs (softmaxRow expf (m.gate x)) m.numExpert with
  | none => rfl
  | some sel =>
    simp only [Option.pure_def, Option.bind_eq_bind, Option.some_bind,
      Bool.false_eq_true, if_false]
    rw [show squeeze0 [sel] = sel.map TIdx.scalar from rfl,
      mapM_map_comp TIdx.scalar (expertAt m.experts) sel,
      show (fun b => expertAt m.experts (TIdx.scalar b))
        = (fun i => m.experts[i]?) from rfl]
    cases hse : sel.mapM (fun i => m.experts[i]?) with
    | none => rfl
    | some selE => rfl

/-- **C9 (amended).**  Gating and top-k selection are computed
independently per batch item, and on a batch of one the batched
inference path agrees with the single-item path; but the inference path
only supports batch size one: for every batch of two or more items,
`squeeze(dim=0)` leaves a 2-D index tensor, expert lookup fails
(`TypeError` from `ModuleList` indexing), and the forward call errors
instead of returning per-item results. -/
theorem moe_batch_of_one (expf : ℚ → ℚ) (m : MoEL) (x kk : Feat)
    (hlen : (m.gate x).length = m.experts.length)
    (hk : m.numExpert ≤ (m.gate x).length) :
    (∃ r, moeForward expf m false x kk = some r ∧
      moeBatchedInfer expf m [x] [kk] = some [r]) ∧
    (∀ xs kks : List Feat, 2 ≤ xs.length → moeBatchedInfer expf m xs kks = none) := by
  constructor
  · have hksel : m.numExpert ≤ (softmaxRow expf (m.gate x)).length := by
      unfold softmaxRow
      rw [List.length_map]
      exact hk
    have htk : topkIdxs (softmaxRow expf (m.gate x)) m.numExpert
        = some (topkGo (softmaxRow expf (m.gate x)) m.numExpert []) := by
      unfold topkIdxs
      rw [if_pos hksel]
    obtain ⟨hnd, hbnd⟩ := topkIdxs_bounds htk
    have hwlen : (softmaxRow expf (m.gate x)).length = m.experts.length := by
      unfold softmaxRow
      rw [List.length_map]
      exact hlen
    have hbnd' : ∀ i ∈ topkGo (softmaxRow expf (m.gate x)) m.numExpert [],
        i < m.experts.length := fun i hi => hwlen ▸ hbnd i hi
    have hsome : ∃ r, moeForward expf m false x kk = some r := by
      simp only [moeForward, htk]
      rw [mapM_getElem_eq m.experts (fun _ _ => fun _ => 0) _ hbnd']
      exact ⟨_, rfl⟩
    obtain ⟨r, hr⟩ := hsome
    refine ⟨r, hr, ?_⟩
    rw [moeBatchedInfer_singleton, hr]
    rfl
  · intro xs kks hlen2
    simp only [moeBatchedInfer]
    cases htkB : (xs.map (fun v => softmaxRow expf (m.gate v))).mapM
        (fun row => topkIdxs row m.numExpert) with
    | none => rfl
    | some selRows =>
      have hlrows : selRows.length = xs.length := by
        have h1 := mapM_some_length _ _ _ htkB
        rw [List.length_map] at h1
        exact h1
      dsimp only
      rcases selRows with _ | ⟨r1, _ | ⟨r2, rest⟩⟩
      · rw [List.length_nil] at hlrows
        omega
      · rw [List.length_cons, List.length_nil] at hlrows
        omega
      · rfl

/-- A one-expert layer used by the batching counterexample. -/
def cMoE : MoEL := ⟨[wExpertA], fun _ => [0], 1⟩

/-- **C9 (counterexample).**  Running the inference path on the batch
concatenation of two single items fails (`none`) even though each item
processed alone succeeds — there is no per-item result to compare, so
batch processing is not equivalent to independent per-item processing. -/
theorem moe_batch_two_fails :
    moeBatchedInfer (fun _ => 1) cMoE [wX, wK] [wX, wK] = none ∧
    (moeBatchedInfer (fun _ => 1) cMoE [wX] [wX]).isSome = true ∧
    (moeBatchedInfer (fun _ => 1) cMoE [wK] [wK]).isSome = true :=
  ⟨rfl, rfl, rfl⟩

theorem moe_batch_of_one_witness :
    (∃ r, moeForward (fun _ => 1) cMoE false wX wK = some r ∧
      moeBatchedInfer (fun _ => 1) cMoE [wX] [wK] = some [r]) ∧
    (∀ xs kks : List Feat, 2 ≤ xs.length →
      moeBatchedInfer (fun _ => 1) cMoE xs kks = none) :=
  moe_batch_of_one (fun _ => 1) cMoE wX wK rfl (by decide)

/-! ### Shape semantics of `SeemoRe.forward` (C8, C10)

Each tensor operation of the pipeline is given its PyTorch shape rule:
`some` with the output shape when the operation accepts the input shape,
`none` when it raises. -/

/-- A 4-D tensor shape `(batch, channels, height, width)`. -/
structure Shape where
  b : ℕ
  c : ℕ
  h : ℕ
  w : ℕ
  deriving DecidableEq

/-- `nn.Conv2d(cin, cout, (kh, kw), stride=(sh, sw), padding=(ph, pw))`:
requires the input channel count to match and the padded extent to reach
the kernel (PyTorch raises on empty outputs). -/
def conv2dShape (cin cout kh kw ph pw sh sw : ℕ) (s : Shape) : Option Shape :=
  if s.c = cin ∧ kh ≤ s.h + 2 * ph ∧ kw ≤ s.w + 2 * pw then
    some ⟨s.b, cout, (s.h + 2 * ph - kh) / sh + 1, (s.w + 2 * pw - kw) / sw + 1⟩
  else none

/-- One dimension of the broadcasting rule: equal, or one side is 1. -/
def bcastDim (a b : ℕ) : Option ℕ :=
  if a = b then some a else if a = 1 then some b else if b = 1 then some a else none

/-- Elementwise binary broadcasting of two 4-D shapes. -/
def broadcastShape (s1 s2 : Shape) : Option Shape :=
  match bcastDim s1.b s2.b, bcastDim s1.c s2.c, bcastDim s1.h s2.h, bcastDim s1.w s2.w with
  | some b, some c, some h, some w => some ⟨b, c, h, w⟩
  | _, _, _, _ => none

/-- `LayerNorm(dim, data_format="channels_first")`: the per-location
statistics are shape-preserving; the affine step broadcasts
`weight[:, None, None]` (shape `(dim, 1, 1)`, right-aligned as
`(1, dim, 1, 1)`) against the input. -/
def lnShape (dim : ℕ) (s : Shape) : Option Shape := broadcastShape s ⟨1, dim, 1, 1⟩

/-- `torch.chunk(x, 2, dim=1)` followed by a two-target unpacking:
needs at least two channels to yield two chunks, of sizes `⌈c/2⌉` and
`c - ⌈c/2⌉`. -/
def chunk2Shape (s : Shape) : Option (Shape × Shape) :=
  if 2 ≤ s.c then
    some (⟨s.b, (s.c + 1) / 2, s.h, s.w⟩, ⟨s.b, s.c - (s.c + 1) / 2, s.h, s.w⟩)
  else none

/-- `channel_shuffle(x, groups)`: the `view` requires the channel count
to be an exact multiple of `groups`; the shape is preserved. -/
def channelShuffleShape (groups : ℕ) (s : Shape) : Option Shape :=
  if 0 < groups ∧ groups ∣ s.c then some s else none

/-- `nn.PixelShuffle(r)`: requires `r² ∣ c`; trades channels for
spatial resolution. -/
def pixelShuffleShape (r : ℕ) (s : Shape) : Option Shape :=
  if 0 < r ∧ r * r ∣ s.c then some ⟨s.b, s.c / (r * r), s.h * r, s.w * r⟩ else none

/-- `F.interpolate(x, size=(oh, ow), mode="bilinear")`. -/
def interpShape (oh ow : ℕ) (s : Shape) : Option Shape :=
  if 0 < s.h ∧ 0 < s.w ∧ 0 < oh ∧ 0 < ow then some ⟨s.b, s.c, oh, ow⟩ else none

/-- `StripedConv2d(in_ch, k)`: a `(1, k)` then a `(k, 1)` depthwise
convolution, each padded by `k // 2` on its striped axis. -/
def stripedConvShape (cin k : ℕ) (s : Shape) : Option Shape :=
  (conv2dShape cin cin 1 k 0 (k / 2) 1 1 s).bind (conv2dShape cin cin k 1 (k / 2) 0 1 1)

/-- `GatedFFN(in_ch, mlp_ratio=2, kernel_size=k)`: expand to `2·in_ch`,
chunk into value/gate halves, refine the gate by a depthwise `k×k`
convolution, multiply, project back down. -/
def gatedFFNShape (inCh k : ℕ) (s : Shape) : Option Shape :=
  (conv2dShape inCh (inCh * 2) 1 1 0 0 1 1 s).bind fun a =>
  (chunk2Shape a).bind fun xg =>
  (conv2dShape (inCh * 2 / 2) (inCh * 2 / 2) k k (k / 2) (k / 2) 1 1 xg.2).bind fun g2 =>
  (broadcastShape xg.1 g2).bind fun mm =>
  conv2dShape inCh inCh 1 1 0 0 1 1 mm

/-- `Router(in_ch, num_experts)`: adaptive average pool to 1×1, squeeze,
`Linear(in_ch, num_experts)`; yields a `(batch, num_experts)` score
matrix when the channel count matches. -/
def routerShape (cin ne : ℕ) (s : Shape) : Option (ℕ × ℕ) :=
  if s.c = cin then some (s.b, ne) else none

/-- `Expert(in_ch, low_dim)`: bottleneck both inputs to `low_dim`,
multiply elementwise, project back to `in_ch`. -/
def expertShape (cin low : ℕ) (x kcal : Shape) : Option Shape :=
  (conv2dShape cin low 1 1 0 0 1 1 x).bind fun a =>
  (conv2dShape cin low 1 1 0 0 1 1 kcal).bind fun bb =>
  (broadcastShape bb a).bind fun mm =>
  conv2dShape low cin 1 1 0 0 1 1 mm

/-- Shape behaviour of `MoELayer.forward`: gate scores, `torch.topk`
(requires `topk ≤ num_experts`), and — in inference mode — the
`squeeze(dim=0)`-based expert indexing, which supports at most one batch
item (C9).  Which experts run is value-dependent, but all experts of the
layer share one shape contract, so all are checked; each expert output
must broadcast-add with the running output. -/
def moeLayerShape (cin ne k : ℕ) (g : ℕ → ℕ) (training : Bool) (x kcal : Shape) :
    Option Shape :=
  (routerShape cin ne x).bind fun _ =>
  if k ≤ ne then
    if training = false ∧ 2 ≤ x.b then none
    else
      (List.range ne).foldlM (fun acc i =>
        (expertShape cin (g i) x kcal).bind fun e => broadcastShape acc e) x
  else none

/-- The `recursive` strided `agg_conv` applications in
`MoEBlock.calibrate` (kernel 4, stride 4, no padding). -/
def aggIterShape (cin : ℕ) : ℕ → Shape → Option Shape
  | 0, s => some s
  | r + 1, s => (conv2dShape cin cin 4 4 0 0 4 4 s).bind (aggIterShape cin r)

/-- `MoEBlock.calibrate`: repeated strided aggregation, a depthwise 3×3
plus pointwise mix, bilinear upsample back to the input size, residual
add. -/
def calibrateShape (cin r : ℕ) (s : Shape) : Option Shape :=
  (aggIterShape cin r s).bind fun d1 =>
  (conv2dShape cin cin 3 3 1 1 1 1 d1).bind fun d2 =>
  (conv2dShape cin cin 1 1 0 0 1 1 d2).bind fun d3 =>
  (interpShape s.h s.w d3).bind fun u =>
  broadcastShape s u

/-- `MoEBlock.forward`: expand to `2·in_ch`, optional channel shuffle,
chunk into `(x, k)`, striped refinement of `x`, calibration of `k`, the
MoE layer, and the final 1×1 projection. -/
def moeBlockShape (cin ne k : ℕ) (g : ℕ → ℕ) (useShuffle training : Bool) (r : ℕ)
    (s : Shape) : Option Shape :=
  (conv2dShape cin cin 3 3 1 1 1 1 s).bind fun a1 =>
  (conv2dShape cin (2 * cin) 1 1 0 0 1 1 a1).bind fun a2 =>
  (if useShuffle then channelShuffleShape 2 a2 else some a2).bind fun a3 =>
  (chunk2Shape a3).bind fun xk =>
  (stripedConvShape cin 3 xk.1).bind fun xs2 =>
  (calibrateShape cin r xk.2).bind fun kc =>
  (moeLayerShape cin ne k g training xs2 kc).bind fun mo =>
  conv2dShape cin cin 1 1 0 0 1 1 mo

/-- `RME`: pre-norm MoE block with residual, then pre-norm gated FFN
with residual. -/
def rmeShape (cin ne k : ℕ) (g : ℕ → ℕ) (useShuffle training : Bool) (r : ℕ)
    (s : Shape) : Option Shape :=
  (lnShape cin s).bind fun n1 =>
  (moeBlockShape cin ne k g useShuffle training r n1).bind fun m1 =>
  (broadcastShape m1 s).bind fun s1 =>
  (lnShape cin s1).bind fun n2 =>
  (gatedFFNShape cin 3 n2).bind fun f1 =>
  broadcastShape f1 s1

/-- `StripedConvFormer`: query/value projection, large-kernel striped
depthwise convolution on the query, elementwise gate, projection. -/
def stripedConvFormerShape (cin k : ℕ) (s : Shape) : Option Shape :=
  (conv2dShape cin (cin * 2) 1 1 0 0 1 1 s).bind fun qv =>
  (chunk2Shape qv).bind fun qvp =>
  (stripedConvShape cin k qvp.1).bind fun q1 =>
  (broadcastShape q1 qvp.2).bind fun mm =>
  conv2dShape cin cin 1 1 0 0 1 1 mm

/-- `SME`: pre-norm striped attention analog with residual, then
pre-norm gated FFN with residual. -/
def smeShape (cin gk : ℕ) (s : Shape) : Option Shape :=
  (lnShape cin s).bind fun n1 =>
  (stripedConvFormerShape cin gk n1).bind fun a1 =>
  (broadcastShape a1 s).bind fun s1 =>
  (lnShape cin s1).bind fun n2 =>
  (gatedFFNShape cin 3 n2).bind fun f1 =>
  broadcastShape f1 s1

/-- `ResGroup`: the local (RME) block then the global (SME) block. -/
def resGroupShape (cin ne gk k : ℕ) (g : ℕ → ℕ) (useShuffle training : Bool) (r : ℕ)
    (s : Shape) : Option Shape :=
  (rmeShape cin ne k g useShuffle training r s).bind (smeShape cin gk)

/-- The deep stage: `num_layers` sequential `ResGroup`s. -/
def bodyShape (cin ne gk k : ℕ) (g : ℕ → ℕ) (useShuffle training : Bool) (r : ℕ) :
    ℕ → Shape → Option Shape
  | 0, s => some s
  | n + 1, s =>
    (resGroupShape cin ne gk k g useShuffle training r s).bind
      (bodyShape cin ne gk k g useShuffle training r n)

/-- The named-configuration record consumed by `SeemoRe.__init__`. -/
structure Cfg where
  scale : ℕ
  inChans : ℕ
  numExperts : ℕ
  numLayers : ℕ
  embeddingDim : ℕ
  useShuffle : Bool
  globalKernelSize : ℕ
  recursive : ℕ
  lrSpace : String
  topk : ℕ

/-- The bottleneck-growth policy selection in `MoEBlock.__init__`;
an unsupported name raises `NotImplementedError` at construction. -/
def growFunc (lr : String) : Option (ℕ → ℕ) :=
  if lr = "linear" then some (fun i => i + 2)
  else if lr = "exp" then some (fun i => 2 ^ (i + 1))
  else if lr = "double" then some (fun i => 2 * i + 2)
  else none

/-- Shape semantics of `SeemoRe.forward`: mean subtraction (broadcast
against the hard-coded `(1, 3, 1, 1)` RGB mean buffer), shallow 3×3
convolution into the embedding width, `num_layers` mixer blocks, norm,
3×3 convolution plus the long residual, the upsample head (channel
expansion then `PixelShuffle(scale)`), and the final mean re-addition
(`num_out_channels = in_chans`). -/
def seemoreForwardShape (cfg : Cfg) (g : ℕ → ℕ) (training : Bool) (s : Shape) :
    Option Shape :=
  (broadcastShape s ⟨1, 3, 1, 1⟩).bind fun a0 =>
  (conv2dShape cfg.inChans cfg.embeddingDim 3 3 1 1 1 1 a0).bind fun a1 =>
  (bodyShape cfg.embeddingDim cfg.numExperts cfg.globalKernelSize cfg.topk g
      cfg.useShuffle training cfg.recursive cfg.numLayers a1).bind fun a2 =>
  (lnShape cfg.embeddingDim a2).bind fun a3 =>
  (conv2dShape cfg.embeddingDim cfg.embeddingDim 3 3 1 1 1 1 a3).bind fun a4 =>
  (broadcastShape a4 a1).bind fun a5 =>
  (conv2dShape cfg.embeddingDim (cfg.scale ^ 2 * cfg.inChans) 3 3 1 1 1 1 a5).bind fun a6 =>
  (pixelShuffleShape cfg.scale a6).bind fun a7 =>
  broadcastShape a7 ⟨1, 3, 1, 1⟩

/-! Shape-preservation lemmas for the individual operations. -/

theorem bcastDim_self (a : ℕ) : bcastDim a a = some a := by
  simp [bcastDim]

theorem bcastDim_one_right (a : ℕ) : bcastDim a 1 = some a := by
  unfold bcastDim
  by_cases h : a = 1
  · rw [if_pos h]
  · rw [if_neg h, if_neg h, if_pos rfl]

theorem broadcast_self (s : Shape) : broadcastShape s s = some s := by
  cases s with
  | mk b c h w =>
    unfold broadcastShape
    rw [bcastDim_self, bcastDim_self, bcastDim_self, bcastDim_self]

theorem lnShape_same (b c h w : ℕ) : lnShape c ⟨b, c, h, w⟩ = some ⟨b, c, h, w⟩ := by
  unfold lnShape broadcastShape
  rw [show bcastDim (Shape.mk b c h w).b (Shape.mk 1 c 1 1).b = some b from bcastDim_one_right b,
    show bcastDim (Shape.mk b c h w).c (Shape.mk 1 c 1 1).c = some c from bcastDim_self c,
    show bcastDim (Shape.mk b c h w).h (Shape.mk 1 c 1 1).h = some h from bcastDim_one_right h,
    show bcastDim (Shape.mk b c h w).w (Shape.mk 1 c 1 1).w = some w from bcastDim_one_right w]

theorem conv1x1_shape (b c cout h w : ℕ) (hh : 1 ≤ h) (hw : 1 ≤ w) :
    conv2dShape c cout 1 1 0 0 1 1 ⟨b, c, h, w⟩ = some ⟨b, cout, h, w⟩ := by
  unfold conv2dShape
  dsimp only
  rw [if_pos ⟨rfl, by omega, by omega⟩]
  have hx : (h + 2 * 0 - 1) / 1 + 1 = h := by omega
  have hy : (w + 2 * 0 - 1) / 1 + 1 = w := by omega
  rw [hx, hy]

theorem conv3_shape (b c cout h w : ℕ) (hh : 1 ≤ h) (hw : 1 ≤ w) :
    conv2dShape c cout 3 3 1 1 1 1 ⟨b, c, h, w⟩ = some ⟨b, cout, h, w⟩ := by
  unfold conv2dShape
  dsimp only
  rw [if_pos ⟨rfl, by omega, by omega⟩]
  have hx : (h + 2 * 1 - 3) / 1 + 1 = h := by omega
  have hy : (w + 2 * 1 - 3) / 1 + 1 = w := by omega
  rw [hx, hy]

theorem convSamePad_shape (b c cout h w k : ℕ) (hk : k % 2 = 1)
    (hh : 1 ≤ h) (hw : 1 ≤ w) :
    conv2dShape c cout k k (k / 2) (k / 2) 1 1 ⟨b, c, h, w⟩ = some ⟨b, cout, h, w⟩ := by
  unfold conv2dShape
  dsimp only
  rw [if_pos ⟨rfl, by omega, by omega⟩]
  have hx : (h + 2 * (k / 2) - k) / 1 + 1 = h := by omega
  have hy : (w + 2 * (k / 2) - k) / 1 + 1 = w := by omega
  rw [hx, hy]

theorem stripedConv_same (b c h w k : ℕ) (hk : k % 2 = 1) (hh : 1 ≤ h) (hw : 1 ≤ w) :
    stripedConvShape c k ⟨b, c, h, w⟩ = some ⟨b, c, h, w⟩ := by
  unfold stripedConvShape conv2dShape
  dsimp only
  rw [if_pos ⟨rfl, by omega, by omega⟩]
  have hx1 : (h + 2 * 0 - 1) / 1 + 1 = h := by omega
  have hy1 : (w + 2 * (k / 2) - k) / 1 + 1 = w := by omega
  rw [hx1, hy1, Option.some_bind]
  dsimp only
  rw [if_pos ⟨rfl, by omega, by omega⟩]
  have hx2 : (h + 2 * (k / 2) - k) / 1 + 1 = h := by omega
  have hy2 : (w + 2 * 0 - 1) / 1 + 1 = w := by omega
  rw [hx2, hy2]

theorem chunk2_shape (b cc c h w : ℕ) (hcc : cc = 2 * c) (hc : 1 ≤ c) :
    chunk2Shape ⟨b, cc, h, w⟩ = some (⟨b, c, h, w⟩, ⟨b, c, h, w⟩) := by
  subst hcc
  unfold chunk2Shape
  dsimp only
  rw [if_pos (by omega : 2 ≤ 2 * c)]
  have h1 : (2 * c + 1) / 2 = c := by omega
  have h2 : 2 * c - (2 * c + 1) / 2 = c := by omega
  rw [h2, h1]

theorem channelShuffle2_shape (b cc c h w : ℕ) (hcc : cc = 2 * c) :
    channelShuffleShape 2 ⟨b, cc, h, w⟩ = some ⟨b, cc, h, w⟩ := by
  subst hcc
  unfold channelShuffleShape
  rw [if_pos ⟨by omega, ⟨c, rfl⟩⟩]

theorem gatedFFN_same (b c h w k : ℕ) (hk : k % 2 = 1) (hc : 1 ≤ c)
    (hh : 1 ≤ h) (hw : 1 ≤ w) :
    gatedFFNShape c k ⟨b, c, h, w⟩ = some ⟨b, c, h, w⟩ := by
  unfold gatedFFNShape
  have hc2 : c * 2 / 2 = c := by omega
  rw [conv1x1_shape b c (c * 2) h w hh hw, Option.some_bind,
    chunk2_shape b (c * 2) c h w (by omega) hc, Option.some_bind, hc2]
  show (conv2dShape c c k k (k / 2) (k / 2) 1 1 ⟨b, c, h, w⟩).bind _ = _
  rw [convSamePad_shape b c c h w k hk hh hw, Option.some_bind]
  show (broadcastShape ⟨b, c, h, w⟩ ⟨b, c, h, w⟩).bind _ = _
  rw [broadcast_self, Option.some_bind, conv1x1_shape b c c h w hh hw]

theorem expert_same (b c low h w : ℕ) (hh : 1 ≤ h) (hw : 1 ≤ w) :
    expertShape c low ⟨b, c, h, w⟩ ⟨b, c, h, w⟩ = some ⟨b, c, h, w⟩ := by
  unfold expertShape
  rw [conv1x1_shape b c low h w hh hw, Option.some_bind, Option.some_bind,
    broadcast_self, Option.some_bind, conv1x1_shape b low c h w hh hw]

theorem moeLayer_same (b c ne k h w : ℕ) (g : ℕ → ℕ) (tr : Bool)
    (hk : k ≤ ne) (hb : ¬ (tr = false ∧ 2 ≤ b)) (hh : 1 ≤ h) (hw : 1 ≤ w) :
    moeLayerShape c ne k g tr ⟨b, c, h, w⟩ ⟨b, c, h, w⟩ = some ⟨b, c, h, w⟩ := by
  unfold moeLayerShape routerShape
  rw [if_pos rfl, Option.some_bind, if_pos hk, if_neg hb]
  have hfold : ∀ L : List ℕ,
      List.foldlM (fun acc i =>
        (expertShape c (g i) ⟨b, c, h, w⟩ ⟨b, c, h, w⟩).bind fun e =>
          broadcastShape acc e) (⟨b, c, h, w⟩ : Shape) L = some ⟨b, c, h, w⟩ := by
    intro L
    induction L with
    | nil => rfl
    | cons i rest ih =>
      rw [List.foldlM_cons]
      simp only [Option.bind_eq_bind]
      rw [expert_same b c (g i) h w hh hw, Option.some_bind, broadcast_self,
        Option.some_bind]
      exact ih
  exact hfold (List.range ne)

theorem aggIter_shape (cin b : ℕ) :
    ∀ (r h w : ℕ), 4 ^ r ≤ h → 4 ^ r ≤ w →
      ∃ h' w', aggIterShape cin r ⟨b, cin, h, w⟩ = some ⟨b, cin, h', w'⟩
        ∧ 1 ≤ h' ∧ 1 ≤ w' := by
  intro r
  induction r with
  | zero =>
    intro h w hh hw
    exact ⟨h, w, rfl, by simpa using hh, by simpa using hw⟩
  | succ r ih =>
    intro h w hh hw
    have h4 : (1 : ℕ) ≤ 4 ^ r := Nat.one_le_pow r 4 (by omega)
    have hp : 4 ^ (r + 1) = 4 * 4 ^ r := by
      rw [pow_succ]
      ring
    rw [hp] at hh hw
    have hstep : conv2dShape cin cin 4 4 0 0 4 4 ⟨b, cin, h, w⟩
        = some ⟨b, cin, (h + 2 * 0 - 4) / 4 + 1, (w + 2 * 0 - 4) / 4 + 1⟩ := by
      unfold conv2dShape
      dsimp only
      rw [if_pos ⟨rfl, by omega, by omega⟩]
    have hnh : 4 ^ r ≤ (h + 2 * 0 - 4) / 4 + 1 := by
      have hd : (4 ^ r - 1) * 4 ≤ h - 4 := by omega
      have := (Nat.le_div_iff_mul_le (by omega : 0 < 4)).mpr hd
      omega
    have hnw : 4 ^ r ≤ (w + 2 * 0 - 4) / 4 + 1 := by
      have hd : (4 ^ r - 1) * 4 ≤ w - 4 := by omega
      have := (Nat.le_div_iff_mul_le (by omega : 0 < 4)).mpr hd
      omega
    obtain ⟨h', w', hrec, hh', hw'⟩ := ih _ _ hnh hnw
    refine ⟨h', w', ?_, hh', hw'⟩
    show (conv2dShape cin cin 4 4 0 0 4 4 ⟨b, cin, h, w⟩).bind (aggIterShape cin r)
      = some ⟨b, cin, h', w'⟩
    rw [hstep, Option.some_bind, hrec]

theorem calibrate_same (b c r h w : ℕ) (hh : 4 ^ r ≤ h) (hw : 4 ^ r ≤ w) :
    calibrateShape c r ⟨b, c, h, w⟩ = some ⟨b, c, h, w⟩ := by
  have h4 : (1 : ℕ) ≤ 4 ^ r := Nat.one_le_pow r 4 (by omega)
  obtain ⟨h', w', hagg, hh', hw'⟩ := aggIter_shape c b r h w hh hw
  unfold calibrateShape
  rw [hagg, Option.some_bind, conv3_shape b c c h' w' hh' hw', Option.some_bind,
    conv1x1_shape b c c h' w' hh' hw', Option.some_bind]
  show (interpShape h w ⟨b, c, h', w'⟩).bind _ = _
  unfold interpShape
  dsimp only
  rw [if_pos ⟨hh', hw', by omega, by omega⟩, Option.some_bind, broadcast_self]

theorem moeBlock_same (b c ne k r h w : ℕ) (g : ℕ → ℕ) (us tr : Bool)
    (hc : 1 ≤ c) (hk : k ≤ ne) (hb : ¬ (tr = false ∧ 2 ≤ b))
    (hh : 4 ^ r ≤ h) (hw : 4 ^ r ≤ w) :
    moeBlockShape c ne k g us tr r ⟨b, c, h, w⟩ = some ⟨b, c, h, w⟩ := by
  have h4 : (1 : ℕ) ≤ 4 ^ r := Nat.one_le_pow r 4 (by omega)
  have hh1 : 1 ≤ h := le_trans h4 hh
  have hw1 : 1 ≤ w := le_trans h4 hw
  unfold moeBlockShape
  rw [conv3_shape b c c h w hh1 hw1, Option.some_bind,
    conv1x1_shape b c (2 * c) h w hh1 hw1, Option.some_bind]
  have hshuf : (if us then channelShuffleShape 2 ⟨b, 2 * c, h, w⟩
      else some ⟨b, 2 * c, h, w⟩) = some ⟨b, 2 * c, h, w⟩ := by
    cases us with
    | true => rw [if_pos rfl]; exact channelShuffle2_shape b (2 * c) c h w rfl
    | false => rfl
  rw [hshuf, Option.some_bind, chunk2_shape b (2 * c) c h w rfl hc, Option.some_bind]
  show (stripedConvShape c 3 ⟨b, c, h, w⟩).bind _ = _
  rw [stripedConv_same b c h w 3 rfl hh1 hw1, Option.some_bind]
  show (calibrateShape c r ⟨b, c, h, w⟩).bind _ = _
  rw [calibrate_same b c r h w hh hw, Option.some_bind,
    moeLayer_same b c ne k h w g tr hk hb hh1 hw1, Option.some_bind,
    conv1x1_shape b c c h w hh1 hw1]

theorem rme_same (b c ne k r h w : ℕ) (g : ℕ → ℕ) (us tr : Bool)
    (hc : 1 ≤ c) (hk : k ≤ ne) (hb : ¬ (tr = false ∧ 2 ≤ b))
    (hh : 4 ^ r ≤ h) (hw : 4 ^ r ≤ w) :
    rmeShape c ne k g us tr r ⟨b, c, h, w⟩ = some ⟨b, c, h, w⟩ := by
  have h4 : (1 : ℕ) ≤ 4 ^ r := Nat.one_le_pow r 4 (by omega)
  have hh1 : 1 ≤ h := le_trans h4 hh
  have hw1 : 1 ≤ w := le_trans h4 hw
  unfold rmeShape
  rw [lnShape_same b c h w, Option.some_bind,
    moeBlock_same b c ne k r h w g us tr hc hk hb hh hw, Option.some_bind,
    broadcast_self, Option.some_bind, lnShape_same b c h w, Option.some_bind,
    gatedFFN_same b c h w 3 rfl hc hh1 hw1, Option.some_bind, broadcast_self]

theorem stripedConvFormer_same (b c gk h w : ℕ) (hgk : gk % 2 = 1) (hc : 1 ≤ c)
    (hh : 1 ≤ h) (hw : 1 ≤ w) :
    stripedConvFormerShape c gk ⟨b, c, h, w⟩ = some ⟨b, c, h, w⟩ := by
  unfold stripedConvFormerShape
  rw [conv1x1_shape b c (c * 2) h w hh hw, Option.some_bind,
    chunk2_shape b (c * 2) c h w (by omega) hc, Option.some_bind]
  show (stripedConvShape c gk ⟨b, c, h, w⟩).bind _ = _
  rw [stripedConv_same b c h w gk hgk hh hw, Option.some_bind]
  show (broadcastShape ⟨b, c, h, w⟩ ⟨b, c, h, w⟩).bind _ = _
  rw [broadcast_self, Option.some_bind, conv1x1_shape b c c h w hh hw]

theorem sme_same (b c gk h w : ℕ) (hgk : gk % 2 = 1) (hc : 1 ≤ c)
    (hh : 1 ≤ h) (hw : 1 ≤ w) :
    smeShape c gk ⟨b, c, h, w⟩ = some ⟨b, c, h, w⟩ := by
  unfold smeShape
  rw [lnShape_same b c h w, Option.some_bind,
    stripedConvFormer_same b c gk h w hgk hc hh hw, Option.some_bind,
    broadcast_self, Option.some_bind, lnShape_same b c h w, Option.some_bind,
    gatedFFN_same b c h w 3 rfl hc hh hw, Option.some_bind, broadcast_self]

theorem resGroup_same (b c ne gk k r h w : ℕ) (g : ℕ → ℕ) (us tr : Bool)
    (hgk : gk % 2 = 1) (hc : 1 ≤ c) (hk : k ≤ ne) (hb : ¬ (tr = false ∧ 2 ≤ b))
    (hh : 4 ^ r ≤ h) (hw : 4 ^ r ≤ w) :
    resGroupShape c ne gk k g us tr r ⟨b, c, h, w⟩ = some ⟨b, c, h, w⟩ := by
  have h4 : (1 : ℕ) ≤ 4 ^ r := Nat.one_le_pow r 4 (by omega)
  unfold resGroupShape
  rw [rme_same b c ne k r h w g us tr hc hk hb hh hw, Option.some_bind,
    sme_same b c gk h w hgk hc (le_trans h4 hh) (le_trans h4 hw)]

theorem body_same (b c ne gk k r h w : ℕ) (g : ℕ → ℕ) (us tr : Bool)
    (hgk : gk % 2 = 1) (hc : 1 ≤ c) (hk : k ≤ ne) (hb : ¬ (tr = false ∧ 2 ≤ b))
    (hh : 4 ^ r ≤ h) (hw : 4 ^ r ≤ w) :
    ∀ n, bodyShape c ne gk k g us tr r n ⟨b, c, h, w⟩ = some ⟨b, c, h, w⟩ := by
  intro n
  induction n with
  | zero => rfl
  | succ n ih =>
    show (resGroupShape c ne gk k g us tr r ⟨b, c, h, w⟩).bind
      (bodyShape c ne gk k g us tr r n) = some ⟨b, c, h, w⟩
    rw [resGroup_same b c ne gk k r h w g us tr hgk hc hk hb hh hw,
      Option.some_bind, ih]

theorem mean_bcast_shape (b h w : ℕ) :
    broadcastShape ⟨b, 3, h, w⟩ ⟨1, 3, 1, 1⟩ = some ⟨b, 3, h, w⟩ :=
  lnShape_same b 3 h w

/-- **C8.**  For every valid input shape `(b, in_chans, h, w)` — input
channels 3 (required by the hard-coded mean buffer, see C10), spatial
extent at least `4^recursive` (required by the strided aggregation in
`calibrate`), a constructible growth policy, an odd global kernel,
`topk ≤ num_experts`, and either training mode or a batch of at most
one (see C9) — `SeemoRe.forward` produces the shape
`(b, out_channels, h·scale, w·scale)` with `out_channels = in_chans`. -/
theorem seemore_forward_shape (cfg : Cfg) (g : ℕ → ℕ) (training : Bool) (b h w : ℕ)
    (hin : cfg.inChans = 3)
    (hgrow : growFunc cfg.lrSpace = some g)
    (hD : 1 ≤ cfg.embeddingDim)
    (hgk : cfg.globalKernelSize % 2 = 1)
    (hs : 1 ≤ cfg.scale)
    (hk : cfg.topk ≤ cfg.numExperts)
    (hb : ¬ (training = false ∧ 2 ≤ b))
    (hh : 4 ^ cfg.recursive ≤ h) (hw : 4 ^ cfg.recursive ≤ w) :
    seemoreForwardShape cfg g training ⟨b, cfg.inChans, h, w⟩
      = some ⟨b, cfg.inChans, h * cfg.scale, w * cfg.scale⟩ := by
  have h4 : (1 : ℕ) ≤ 4 ^ cfg.recursive := Nat.one_le_pow _ 4 (by omega)
  have hh1 : 1 ≤ h := le_trans h4 hh
  have hw1 : 1 ≤ w := le_trans h4 hw
  unfold seemoreForwardShape
  rw [hin]
  rw [mean_bcast_shape b h w, Option.some_bind,
    conv3_shape b 3 cfg.embeddingDim h w hh1 hw1, Option.some_bind,
    body_same b cfg.embeddingDim cfg.numExperts cfg.globalKernelSize cfg.topk
      cfg.recursive h w g cfg.useShuffle training hgk hD hk hb hh hw cfg.numLayers,
    Option.some_bind,
    lnShape_same b cfg.embeddingDim h w, Option.some_bind,
    conv3_shape b cfg.embeddingDim cfg.embeddingDim h w hh1 hw1, Option.some_bind,
    broadcast_self, Option.some_bind,
    conv3_shape b cfg.embeddingDim (cfg.scale ^ 2 * 3) h w hh1 hw1, Option.some_bind]
  have hps : pixelShuffleShape cfg.scale ⟨b, cfg.scale ^ 2 * 3, h, w⟩
      = some ⟨b, 3, h * cfg.scale, w * cfg.scale⟩ := by
    unfold pixelShuffleShape
    dsimp only
    rw [if_pos ⟨by omega, ⟨3, by ring⟩⟩]
    have hdiv : cfg.scale ^ 2 * 3 / (cfg.scale * cfg.scale) = 3 := by
      rw [pow_two, Nat.mul_div_cancel_left 3 (Nat.mul_pos hs hs)]
    rw [hdiv]
  rw [hps, Option.some_bind, mean_bcast_shape b (h * cfg.scale) (w * cfg.scale)]

/-- A small valid configuration exercising the C8 theorem. -/
def cfgW : Cfg := ⟨2, 3, 1, 1, 1, true, 3, 1, "linear", 1⟩

theorem seemore_forward_shape_witness :
    seemoreForwardShape cfgW (fun i => i + 2) true ⟨1, cfgW.inChans, 4, 4⟩
      = some ⟨1, cfgW.inChans, 4 * cfgW.scale, 4 * cfgW.scale⟩ :=
  seemore_forward_shape cfgW (fun i => i + 2) true 1 4 4 rfl rfl (by decide)
    (by decide) (by decide) (by decide) (by decide) (by decide) (by decide)

/-- **C10.**  The per-channel mean buffer is hard-coded as a 3-channel
`(1, 3, 1, 1)` tensor even though `in_chans` is a constructor parameter:
for every model with `in_chans ∉ {1, 3}`, the very first mean-subtraction
step of `SeemoRe.forward` is a broadcast shape mismatch, so the forward
call fails for every input rather than performing inference. -/
theorem seemore_forward_wrong_channels (cfg : Cfg) (g : ℕ → ℕ) (training : Bool)
    (b h w : ℕ) (hc3 : cfg.inChans ≠ 3) (hc1 : cfg.inChans ≠ 1) :
    broadcastShape ⟨b, cfg.inChans, h, w⟩ ⟨1, 3, 1, 1⟩ = none ∧
    seemoreForwardShape cfg g training ⟨b, cfg.inChans, h, w⟩ = none := by
  have hbc : bcastDim cfg.inChans 3 = none := by
    unfold bcastDim
    rw [if_neg hc3, if_neg hc1, if_neg (by omega)]
  have hmean : broadcastShape ⟨b, cfg.inChans, h, w⟩ ⟨1, 3, 1, 1⟩ = none := by
    unfold broadcastShape
    dsimp only
    rw [bcastDim_one_right b, hbc]
  refine ⟨hmean, ?_⟩
  unfold seemoreForwardShape
  rw [hmean]
  rfl

/-- A configuration with a 2-channel input, as the claim contemplates. -/
def cfgBad : Cfg := ⟨2, 2, 1, 1, 1, true, 3, 1, "linear", 1⟩

theorem seemore_forward_wrong_channels_witness :
    broadcastShape ⟨1, cfgBad.inChans, 4, 4⟩ ⟨1, 3, 1, 1⟩ = none ∧
    seemoreForwardShape cfgBad (fun i => i + 2) true ⟨1, cfgBad.inChans, 4, 4⟩ = none :=
  seemore_forward_wrong_channels cfgBad (fun i => i + 2) true 1 4 4
    (by decide) (by decide)

/-! ### The mutable `mean` buffer in `SeemoRe.forward` (C7) -/

/-- Tensor element precisions relevant to `type_as`. -/
inductive Dtype : Type where
  | f32
  | f16
  | f64
  deriving DecidableEq

/-- The `self.mean` buffer: a dtype tag plus the stored per-channel mean
values (numeric content is modelled exactly; `type_as` changes the
tag). -/
structure MeanBuf where
  dtype : Dtype
  vals : List ℚ
  deriving DecidableEq

/-- `tensor.type_as(x)`: same values, the dtype of `x`. -/
def typeAs (m : MeanBuf) (d : Dtype) : MeanBuf := ⟨d, m.vals⟩

/-- The fields of a `SeemoRe` module relevant to inference: `mean` is
the only field `forward` ever reassigns; `scale`, `img_range` and all
submodule weights (abstracted by `W`) are read-only. -/
structure SeemoReState (W : Type) where
  scale : ℕ
  imgRange : ℚ
  mean : MeanBuf
  params : W
  deriving DecidableEq

/-- An input tensor for the state view: a dtype tag plus contents. -/
structure TInput where
  dtype : Dtype
  data : List ℚ
  deriving DecidableEq

/-- `SeemoRe.forward` as a state transition: its first line,
`self.mean = self.mean.type_as(x)`, reassigns the `mean` field; the rest
of the pipeline (mean-centering, convolutions, mixer blocks, norm,
upsampler, mean re-insertion) only reads the weights and is abstracted
as the pure function `body` of the updated state and the input. -/
def seemoreForwardState {W Out : Type} (body : SeemoReState W → TInput → Out)
    (m : SeemoReState W) (x : TInput) : SeemoReState W × Out :=
  let m' : SeemoReState W := { m with mean := typeAs m.mean x.dtype }
  (m', body m' x)

/-- A freshly constructed model state: float32 mean buffer holding the
hard-coded RGB means `(0.4488, 0.4371, 0.4040)`. -/
def initState : SeemoReState Unit :=
  ⟨4, 1, ⟨Dtype.f32, [4488 / 10000, 4371 / 10000, 4040 / 10000]⟩, ()⟩

/-- **C7 (counterexample).**  A forward call on a half-precision input
reassigns `self.mean` to a half-precision buffer: the post-call state
differs from the pre-call state, so inference does mutate the model. -/
theorem seemore_forward_mutates :
    (seemoreForwardState (fun _ _ => ()) initState ⟨Dtype.f16, []⟩).1 ≠ initState := by
  intro hEq
  have hd : Dtype.f16 = Dtype.f32 := congrArg (fun st => st.mean.dtype) hEq
  exact absurd hd (by decide)

/-- **C7 (amended).**  The only field `SeemoRe.forward` mutates is the
cached `mean` buffer, which it reassigns to `self.mean.type_as(x)`:
every other field is unchanged, the buffer's numeric content is
unchanged, and when the input's dtype already matches the buffer's the
state is entirely unchanged (the steady state under a fixed input
precision). -/
theorem seemore_forward_frame {W Out : Type} (body : SeemoReState W → TInput → Out)
    (m : SeemoReState W) (x : TInput) :
    (seemoreForwardState body m x).1.scale = m.scale ∧
    (seemoreForwardState body m x).1.imgRange = m.imgRange ∧
    (seemoreForwardState body m x).1.params = m.params ∧
    (seemoreForwardState body m x).1.mean.vals = m.mean.vals ∧
    (seemoreForwardState body m x).1.mean.dtype = x.dtype ∧
    (x.dtype = m.mean.dtype → (seemoreForwardState body m x).1 = m) := by
  refine ⟨rfl, rfl, rfl, rfl, rfl, fun hdt => ?_⟩
  show { m with mean := typeAs m.mean x.dtype } = m
  rw [hdt]
  cases m with
  | mk sc ir mn pr =>
    cases mn with
    | mk dt vl => rfl

theorem seemore_forward_frame_witness :
    (seemoreForwardState (fun _ _ => ()) initState ⟨Dtype.f32, []⟩).1 = initState :=
  (seemore_forward_frame (fun _ _ => ()) initState ⟨Dtype.f32, []⟩).2.2.2.2.2 rfl

end Seemore
